import Mathlib

/-!
Shallow embedding of the CLAM manifold library (source: pyclam/manifold.py).

Distances are modelled as rationals.  The dataset is abstracted away: a
query point is represented by the function `q : Nat -> Rat` giving its
distance to each data index, and the metric between data indices by a
function `Nat -> Nat -> Rat` where it is needed.  Cached cluster geometry
(`argmedoid`, `radius`, `argsamples`, `argradius`, `depth`) is carried as
data on the cluster records, exactly as the Python objects carry it in
their caches; well-formedness hypotheses tie the fields together where a
theorem needs it.

Python sets and dicts are modelled by `Finset` respectively association
lists whose update keeps dict semantics (key set = union, new value wins).
`BATCH_SIZE` chunking of pointwise maps/filters (iteration `for batch in
iter(self)` followed by an elementwise operation) is flattened: processing
a list in contiguous chunks in order and concatenating is the identity on
the resulting list, so the flat form is used with a comment at each site.
-/

namespace Clam

/-- One node of the cluster tree with its cached geometry: `argpoints`,
`children` (ids; `[]` covers both Python `None` and `list()`, which are
equally falsy in every branch the search code takes), the cached
`argmedoid` data index, the cached `radius`, and `depth`
(= `name.count('0')`, kept as a plain field).  Clusters are referred to by
their index into `MTree.cls`. -/
structure TreeCluster where
  argpoints : List Nat
  children : List Nat
  argmedoid : Nat
  radius : ℚ
  depth : Nat
deriving DecidableEq

instance : Inhabited TreeCluster :=
  ⟨⟨[], [], 0, 0, 0⟩⟩

/-- The manifold's tree data: cluster table, root id, `len(self.layers)`,
and the cluster ids of the deepest layer `layers[-1]` (used by
`find_knn` for its starting radius). -/
structure MTree where
  cls : List TreeCluster
  root : Nat
  numLayers : Nat
  lastLayer : List Nat
deriving DecidableEq

/-- Cluster lookup; out-of-table ids give the default (empty) cluster. -/
def cl (m : MTree) (i : Nat) : TreeCluster :=
  m.cls.getD i default

/-- Key list of an association list modelling a Python dict. -/
def keys (l : List (Nat × ℚ)) : List Nat := l.map Prod.fst

/-- Python `old.update(upd)`: key set becomes the union, entries of `upd`
win. -/
def dictUpdate (old upd : List (Nat × ℚ)) : List (Nat × ℚ) :=
  old.filter (fun p => p.1 ∉ keys upd) ++ upd

/-- Keep the first entry for every key (Python dict-comprehension keyed
insertion; the overwriting value is always recomputed identically at
every call site, so keeping the first entry is dict-faithful).  Fuel
equals the list length so the definition is structural and
kernel-reducible. -/
def dedupByAux (key : α → Nat) : Nat → List α → List α
  | 0, _ => []
  | _ + 1, [] => []
  | fuel + 1, a :: rest => a :: dedupByAux key fuel (rest.filter fun b => key b ≠ key a)

def dedupBy (key : α → Nat) (l : List α) : List α := dedupByAux key l.length l

def dedupKeys (l : List (Nat × ℚ)) : List (Nat × ℚ) := dedupBy Prod.fst l

/-- The loop of `Cluster._tree_search` (manifold.py:303-339).  `cands` and
`results` are the dicts `candidates` and `results`; the fuel is the number
of iterations `range(self.depth, depth)` performs. -/
def tree_search_inner (m : MTree) (q : Nat → ℚ) (radius : ℚ) :
    Nat → List (Nat × ℚ) → List (Nat × ℚ) → List (Nat × ℚ)
  | 0, cands, results => dictUpdate results cands
  | fuel + 1, cands, results =>
      let results1 := dictUpdate results (cands.filter fun p => (cl m p.1).children = [])
      let cands1 := cands.filter fun p => (cl m p.1).children ≠ []
      let childIds := cands1.flatMap fun p => (cl m p.1).children
      if childIds = [] then
        dictUpdate results1 cands1
      else
        let cands2 := (childIds.map fun c => (c, q (cl m c).argmedoid)).filter
          fun p => p.2 ≤ radius + (cl m p.1).radius
        if cands2 = [] then dictUpdate results1 cands2
        else tree_search_inner m q radius fuel cands2 results1

inductive SearchErr
  | invalidDepth
deriving DecidableEq

/-- `Cluster.tree_search` (manifold.py:341-355).  `depth = -1` is replaced
by `len(self.manifold.layers)`; then depths below the cluster's own depth
raise, an equal depth returns `{self: d}` unconditionally, and otherwise
the descent runs only under the overlap guard. -/
def tree_search (m : MTree) (q : Nat → ℚ) (c : Nat) (radius : ℚ) (depth : Int) :
    Except SearchErr (List (Nat × ℚ)) :=
  let depth1 : Int := if depth = -1 then (m.numLayers : Int) else depth
  if depth1 < ((cl m c).depth : Int) then .error .invalidDepth
  else if ((cl m c).depth : Int) = depth1 then .ok [(c, q (cl m c).argmedoid)]
  else if q (cl m c).argmedoid ≤ (cl m c).radius + radius then
    .ok (tree_search_inner m q radius (depth1.toNat - (cl m c).depth) [(c, q (cl m c).argmedoid)] [])
  else .ok []

/-- `Manifold.find_clusters` (manifold.py:1275-1277): `layers[0]` holds only
the root, so this is the root's `tree_search` at depth `len(self.layers)`.
The error branch is unreachable because the root has depth `0 ≤ len(layers)`. -/
def find_clusters (m : MTree) (q : Nat → ℚ) (radius : ℚ) : List (Nat × ℚ) :=
  match tree_search m q m.root radius (m.numLayers : Int) with
  | .ok r => r
  | .error _ => []

/-- `Manifold.find_points` (manifold.py:1263-1273).  Candidate indices are
the `argpoints` of the found clusters; the batched distance pass keeps
`p` with `d <= radius` into the dict `results` (batching flattened, see
header) and returns the pairs sorted ascending by distance (Python
`sorted` is stable, as is `List.insertionSort`). -/
def find_points (m : MTree) (q : Nat → ℚ) (radius : ℚ) : List (Nat × ℚ) :=
  let cands : List Nat := (find_clusters m q radius).flatMap fun p => (cl m p.1).argpoints
  let kept := (cands.map fun p => (p, q p)).filter fun pr => pr.2 ≤ radius
  List.insertionSort (fun a b => a.2 ≤ b.2) (dedupKeys kept)

/-- Fold maximum of a list of rationals, with 0 as the base. -/
def listMax (l : List ℚ) : ℚ := l.foldr max 0

/-- An upper bound on every query distance the search can look at: the
distances from the query to every cluster medoid in the table and to every
point of every cluster.  Used only to size the fuel of `find_knn`'s
radius-doubling loop. -/
def qBound (m : MTree) (q : Nat → ℚ) : ℚ :=
  listMax ((m.cls.map fun c => q c.argmedoid) ++ (m.cls.flatMap fun c => c.argpoints).map q)

/-- A natural number at least as large as the rational `x`
(computable, kernel-reducible). -/
def natBound (x : ℚ) : Nat := x.num.toNat / x.den + 1

/-- The starting radius of `find_knn` (manifold.py:1281-1282):
`max(mean(radii of layers[-1]), 1e-16)`; the float literal `1e-16` is
modelled as `1/10^16`. -/
def knnRadius (m : MTree) : ℚ :=
  max (((m.lastLayer.map fun i => (cl m i).radius).foldr (· + ·) 0) / (m.lastLayer.length : ℚ))
    (1 / 10 ^ 16)

/-- The `while len(results) < k` radius-doubling loop of `find_knn`
(manifold.py:1283-1288).  `none` models non-termination: the fuel passed by
`find_knn` is large enough that the radius has passed `qBound` before it
runs out, at which point `find_points` already returns every point of the
manifold and further doubling cannot change the count. -/
def find_knn_loop (m : MTree) (q : Nat → ℚ) (k : Nat) :
    Nat → ℚ → Option (List (Nat × ℚ))
  | 0, _ => none
  | fuel + 1, radius =>
      let results := find_points m q radius
      if results.length < k then find_knn_loop m q k fuel (radius * 2)
      else some ((List.insertionSort (fun a b => a.2 ≤ b.2) results).take k)

/-- `Manifold.find_knn` (manifold.py:1279-1288). -/
def find_knn (m : MTree) (q : Nat → ℚ) (k : Nat) : Option (List (Nat × ℚ)) :=
  find_knn_loop m q k (natBound (qBound m q / knnRadius m) + 1) (knnRadius m)

/-- The number of points the manifold owns. -/
def nPoints (m : MTree) : Nat := (cl m m.root).argpoints.length

/-! ### Candidate propagation (`Graph._find_candidates`, manifold.py:499-530) -/

/-- State threaded by the `for depth in range(cluster.depth)` loop of
`_find_candidates`: the running `radius` variable, the loop index
(the depth of the current parent in the ancestry), and the parent's
`candidates` dict. -/
structure CandState where
  R : ℚ
  idx : Nat
  cands : List (Nat × ℚ)
deriving DecidableEq

/-- The working set seeded for one step of `_find_candidates`
(manifold.py:510-519): the parent's candidates plus the children of those
candidates whose depth equals the loop index. -/
def workingSet (m : MTree) (st : CandState) : List Nat :=
  dedupBy id
    (keys st.cands ++
      st.cands.flatMap fun p => if (cl m p.1).depth = st.idx then (cl m p.1).children else [])

/-- One step of `_find_candidates` (manifold.py:509-529): distances from
`next`'s medoid to every working-set medoid, retaining `x` with
`d <= x.radius + radius * 4`.  `Dd i j` is the metric between the data
indices `i` and `j`. -/
def candStep (m : MTree) (Dd : Nat → Nat → ℚ) (next : Nat) (st : CandState) : List (Nat × ℚ) :=
  ((workingSet m st).map fun x => (x, Dd (cl m next).argmedoid (cl m x).argmedoid)).filter
    fun pr => pr.2 ≤ (cl m pr.1).radius + st.R * 4

/-- One iteration of `_find_candidates`' ancestry loop
(manifold.py:504-529): overwrite the running radius when the next
ancestor's radius is positive, advance the loop index, and compute the
next candidates dict. -/
def candChainStep (m : MTree) (Dd : Nat → Nat → ℚ) (st : CandState) (next : Nat) : CandState :=
  let R := if 0 < (cl m next).radius then (cl m next).radius else st.R
  ⟨R, st.idx + 1, candStep m Dd next { st with R := R }⟩

/-- The whole of `_find_candidates` run along an ancestry `r0 :: rest`
(root first): the running radius starts at the root's radius, and the
root's candidates are `{root: 0}` (set by `Manifold.build_graph`,
manifold.py:1197). -/
def candChain (m : MTree) (Dd : Nat → Nat → ℚ) : List Nat → CandState
  | [] => ⟨0, 0, []⟩
  | r0 :: rest => rest.foldl (candChainStep m Dd) ⟨(cl m r0).radius, 0, [(r0, 0)]⟩

/-- The spec's reading of the retention radius (claim C4): the largest
positive radius observed among the clusters on the path, with the root's
radius as the starting value.  Written from the spec's words, for
comparison with the code's `candChain`. -/
def specLargestPositiveRadius (m : MTree) : List Nat → ℚ
  | [] => 0
  | r0 :: rest =>
      rest.foldl (fun acc i => if 0 < (cl m i).radius ∧ acc < (cl m i).radius
        then (cl m i).radius else acc) ((cl m r0).radius)

/-- The value the code's threading actually computes: the radius of the
deepest cluster on the path (beyond the root) with positive radius, or the
root's radius when none is positive. -/
def lastPositiveRadius (m : MTree) : List Nat → ℚ
  | [] => 0
  | r0 :: rest =>
      rest.foldl (fun acc i => if 0 < (cl m i).radius then (cl m i).radius else acc)
        ((cl m r0).radius)

/-! ### Partitioning (`Cluster.partition`, manifold.py:269-301) -/

/-- The cluster data `partition` reads: the cached `argsamples` and
`argradius` are carried as data (they are sampled/scanned caches in the
source). -/
structure PCluster where
  name : String
  argpoints : List Nat
  argsamples : List Nat
  argradius : Nat
deriving DecidableEq

/-- First index of the minimum together with the minimum (np.argmin). -/
def argminAux : List ℚ → Nat × ℚ
  | [] => (0, 0)
  | [x] => (0, x)
  | x :: y :: rest =>
      let jv := argminAux (y :: rest)
      if x ≤ jv.2 then (0, x) else (jv.1 + 1, jv.2)

/-- First index of the maximum together with the maximum (np.argmax). -/
def argmaxAux : List ℚ → Nat × ℚ
  | [] => (0, 0)
  | [x] => (0, x)
  | x :: y :: rest =>
      let jv := argmaxAux (y :: rest)
      if jv.2 ≤ x then (0, x) else (jv.1 + 1, jv.2)

/-- `Cluster._find_poles` (manifold.py:253-267).  `dd p q'` is the metric
between data indices.  The source's assert that the poles are distinct is
a hypothesis of the partition theorem. -/
def find_poles (dd : Nat → Nat → ℚ) (c : PCluster) : List Nat :=
  if 2 < c.argsamples.length then
    [c.argradius, c.argsamples.getD (argmaxAux (c.argsamples.map (dd c.argradius))).1 0]
  else c.argsamples

/-- The pole-assignment loop of `partition` (manifold.py:288-292): every
non-pole point goes to the bucket of its `np.argmin` pole (batching
flattened, see header). -/
def assignPoints (dd : Nat → Nat → ℚ) (poles : List Nat) (pts : List Nat)
    (buckets : List (List Nat)) : List (List Nat) :=
  pts.foldl
    (fun bks p =>
      if p ∈ poles then bks
      else
        let j := (argminAux (poles.map fun q' => dd p q')).1
        bks.set j (bks.getD j [] ++ [p]))
    buckets

/-- `Cluster.partition` (manifold.py:269-301), returning the list of
`(name, argpoints)` of the children (empty when the cluster is not split).
The external criteria are abstracted by their evaluated truth values
`crit`; buckets are sorted ascending by size (Python `list.sort` is
stable, as is `List.insertionSort`) and child `i` is named
`name + '0' + '1' * i`. -/
def partition (dd : Nat → Nat → ℚ) (crit : List Bool) (c : PCluster) :
    List (String × List Nat) :=
  if ¬ (1 < c.argsamples.length ∧ crit.all id) then []
  else
    let poles := find_poles dd c
    let buckets := assignPoints dd poles c.argpoints (poles.map fun p => [p])
    let sortedB := List.insertionSort (fun a b => a.length ≤ b.length) buckets
    sortedB.enum.map fun bi => (c.name ++ "0" ++ String.mk (List.replicate bi.1 '1'), bi.2)

/-- Well-formedness of a built cluster tree, the facts `Manifold.build_tree`
guarantees and the theorems below consume. -/
structure MWF (m : MTree) : Prop where
  rootValid : m.root < m.cls.length
  rootDepth : (cl m m.root).depth = 0
  rootNodup : (cl m m.root).argpoints.Nodup
  validChildren : ∀ i < m.cls.length, ∀ c ∈ (cl m i).children, c < m.cls.length
  childDepth : ∀ i < m.cls.length, ∀ c ∈ (cl m i).children, (cl m c).depth = (cl m i).depth + 1
  childCover : ∀ i < m.cls.length, (cl m i).children ≠ [] →
    ∀ p ∈ (cl m i).argpoints, ∃ c ∈ (cl m i).children, p ∈ (cl m c).argpoints
  childSub : ∀ i < m.cls.length, ∀ c ∈ (cl m i).children,
    ∀ p ∈ (cl m c).argpoints, p ∈ (cl m i).argpoints
  radiusNonneg : ∀ i < m.cls.length, 0 ≤ (cl m i).radius
  depthLe : ∀ i < m.cls.length, (cl m i).depth + 1 ≤ m.numLayers

/-! ### The graph (`Graph`, manifold.py:382-1054)

Graph clusters are abstract ids carrying a radius, an `argpoints` set and a
`candidates` dict (with the stored candidate distances); edges are built
from them exactly as `build_edges` does.  An `Edge(neighbor, distance, _)`
is the pair `(neighbor, distance)`: the `probability` slot, `None`
throughout `Graph.edges`, is only ever filled inside the walkable-edge
cache, modelled by `probEdges` below. -/

structure GModel where
  clusters : Finset Nat
  cand : Nat → Finset (Nat × ℚ)
  radius : Nat → ℚ
  pts : Nat → Finset Nat

/-- `Graph._find_neighbors` (manifold.py:532-543): the outgoing edges of a
member cluster are its candidates that are members of the graph with
`d <= c.radius + x.radius`.  Non-members have no entry in the edge dict. -/
def edgesN (g : GModel) (c : Nat) : Finset (Nat × ℚ) :=
  if c ∈ g.clusters then
    (g.cand c).filter fun p => p.1 ∈ g.clusters ∧ p.2 ≤ g.radius c + g.radius p.1
  else ∅

/-- The handshake of `build_edges` (manifold.py:604-606).  The in-place
cascade converges to the symmetric closure: every added edge is the
reverse of an existing one, and the reverse of a reverse is already
present. -/
def edgesH (g : GModel) (c : Nat) : Finset (Nat × ℚ) :=
  if c ∈ g.clusters then
    edgesN g c ∪
      g.clusters.biUnion fun b => ((edgesN g b).filter fun p => p.1 = c).image fun p => (b, p.2)
  else ∅

/-- `build_edges` after removing the `(c, 0)` self-edges
(manifold.py:608-611). -/
def build_edges (g : GModel) (c : Nat) : Finset (Nat × ℚ) :=
  (edgesH g c).erase (c, 0)

/-- `Graph.split_walkable_vs_subsumed` (manifold.py:545-576): a member is
subsumed iff some neighbor engulfs it. -/
def subsumed (g : GModel) : Finset Nat :=
  g.clusters.filter fun c => ∃ p ∈ build_edges g c, g.radius p.1 ≥ p.2 + g.radius c

def walkable (g : GModel) : Finset Nat :=
  g.clusters \ subsumed g

/-- Outgoing edges to subsumed neighbors, kept for every member cluster. -/
def subsumedEdges (g : GModel) (c : Nat) : Finset (Nat × ℚ) :=
  if c ∈ g.clusters then (build_edges g c).filter fun p => p.1 ∈ subsumed g else ∅

/-- Outgoing edges among walkable clusters, kept only for walkable
clusters. -/
def walkableEdges (g : GModel) (c : Nat) : Finset (Nat × ℚ) :=
  if c ∈ walkable g then (build_edges g c).filter fun p => p.1 ∉ subsumed g else ∅

/-- The normalisation factor of `recompute_transition_probabilities`
(manifold.py:585-588): the sum of the reciprocal distances of the walkable
edges. -/
def probFactor (g : GModel) (c : Nat) : ℚ :=
  ∑ p ∈ walkableEdges g c, 1 / p.2

/-- The walkable edges with their probabilities
`1 / (distance * factor)` filled in (manifold.py:589-592). -/
def probEdges (g : GModel) (c : Nat) : Finset (Nat × ℚ × ℚ) :=
  (walkableEdges g c).image fun p => (p.1, p.2, 1 / (p.2 * probFactor g c))

inductive GErr
  | removeAbsent
  | addPresent
  | pointsMismatch
  | badStart
deriving DecidableEq

/-- `Graph.replace_clusters` (manifold.py:741-782): the three validation
errors in source order, then the new cluster set
`(clusters \ removals) ∪ additions`; caches are cleared, so all the edge
sets above are the rebuilt ones of the returned model (the functional
reading of `self.cache.clear(); ...; self.build_edges()`). -/
def replace_clusters (g : GModel) (removals additions : Finset Nat) :
    Except GErr GModel :=
  if ¬ removals ⊆ g.clusters then .error .removeAbsent
  else if ∃ c ∈ additions, c ∈ g.clusters then .error .addPresent
  else if removals.biUnion g.pts ≠ additions.biUnion g.pts then .error .pointsMismatch
  else .ok { g with clusters := (g.clusters \ removals) ∪ additions }

/-- `Graph.neighbors(c, choice='walkable')` as an id list.  Python iterates
a set in unspecified order; the model fixes the ascending order (every
theorem below is order-insensitive). -/
def nbrs (g : GModel) (c : Nat) : List Nat :=
  ((walkableEdges g c).image Prod.fst).sort (· ≤ ·)

/-- Subsumed neighbors of a cluster, as collected by the traversals'
final attach step. -/
def subNbrs (g : GModel) (c : Nat) : Finset Nat :=
  (subsumedEdges g c).image Prod.fst

/-- The flood-fill loop of `Graph.traverse` (manifold.py:985-991).  The
fuel passed by `traverse` exceeds the number of clusters, which bounds the
number of iterations. -/
def traverseLoop (g : GModel) : Nat → Finset Nat → Finset Nat → Finset Nat
  | 0, visited, _ => visited
  | fuel + 1, visited, frontier =>
      if frontier = ∅ then visited
      else
        let visited1 := visited ∪ frontier
        traverseLoop g fuel visited1
          ((frontier.biUnion fun c => (walkableEdges g c).image Prod.fst) \ visited1)

/-- `Graph.traverse` (manifold.py:973-998). -/
def traverse (g : GModel) (start : Nat) : Except GErr (Finset Nat) :=
  if start ∈ subsumed g then .error .badStart
  else
    let visited := traverseLoop g (g.clusters.card + 1) ∅ {start}
    .ok (visited ∪ visited.biUnion (subNbrs g))

/-- The shared worklist loop of `bft` and `dft` (manifold.py:1009-1019 and
1037-1047): pop the head, mark it if unvisited and append its unvisited
walkable neighbors.  `front = true` appends at the tail (the `deque` of
`bft`); `front = false` prepends them reversed, which is Python's
`stack.extend` followed by `stack.pop()` with the stack's top kept at the
head. -/
def worklistLoop (g : GModel) (front : Bool) : Nat → List Nat → Finset Nat → Finset Nat
  | 0, _, visited => visited
  | _ + 1, [], visited => visited
  | fuel + 1, c :: rest, visited =>
      if c ∈ visited then worklistLoop g front fuel rest visited
      else
        let visited1 := insert c visited
        let fresh := (nbrs g c).filter fun n => n ∉ visited1
        worklistLoop g front fuel (if front then rest ++ fresh else fresh.reverse ++ rest) visited1

/-- Fuel that the worklist can never exhaust: every pop either consumes a
queue entry or visits a new cluster, and each visit enqueues at most
`card` entries. -/
def worklistFuel (g : GModel) : Nat :=
  (g.clusters.card + 1) * (g.clusters.card + 1) + 1

/-- `Graph.bft` (manifold.py:1000-1026). -/
def bft (g : GModel) (start : Nat) : Except GErr (Finset Nat) :=
  if start ∈ subsumed g then .error .badStart
  else
    let visited := worklistLoop g true (worklistFuel g) [start] ∅
    .ok (visited ∪ visited.biUnion (subNbrs g))

/-- `Graph.dft` (manifold.py:1028-1054). -/
def dft (g : GModel) (start : Nat) : Except GErr (Finset Nat) :=
  if start ∈ subsumed g then .error .badStart
  else
    let visited := worklistLoop g false (worklistFuel g) [start] ∅
    .ok (visited ∪ visited.biUnion (subNbrs g))

/-- One walkable step is an edge of `nbrs`; reachability over walkable
edges is its reflexive-transitive closure. -/
def Reaches (g : GModel) (a b : Nat) : Prop :=
  Relation.ReflTransGen (fun x y => y ∈ nbrs g x) a b

/-- The graph's clusters in ascending order (Python iterates the edge dict;
order is irrelevant to every statement below). -/
def clustersSorted (g : GModel) : List Nat :=
  g.clusters.sort (· ≤ ·)

/-- Dict update `counts[c] := v` on an association list (only existing keys
are touched; `random_walks` only ever writes keys it initialised). -/
def setCount (counts : List (Nat × Nat)) (c v : Nat) : List (Nat × Nat) :=
  counts.map fun p => if p.1 = c then (p.1, v) else p

def getCount (counts : List (Nat × Nat)) (c : Nat) : Nat :=
  ((counts.filter fun p => p.1 = c).map Prod.snd).headD 0

/-- `counts[cluster] += 1`. -/
def bumpCount (counts : List (Nat × Nat)) (c : Nat) : List (Nat × Nat) :=
  counts.map fun p => if p.1 = c then (p.1, p.2 + 1) else p

/-- `Graph.random_walks` (manifold.py:922-971).  Graphs with fewer than two
clusters return `{cluster: 1}` immediately.  Afterwards: starts are
validated to be walkable (name resolution is abstracted away, starts are
ids), the walks move by picking a walkable neighbor — `np.random.choice`
is abstracted by the oracle `pick`, reduced modulo the neighbor count —
and finally every subsumed neighbor of a walkable cluster receives its
subsumer's count (Python iterates the walkable set in unspecified order;
the model fixes ascending order). -/
def random_walks (g : GModel) (pick : Nat → Nat → Nat) (starts : List Nat) (steps : Nat) :
    Except GErr (List (Nat × Nat)) :=
  if g.clusters.card < 2 then .ok ((clustersSorted g).map fun c => (c, 1))
  else if ∃ s ∈ starts, s ∉ walkable g then .error .badStart
  else
    let counts0 := (clustersSorted g).map fun c => (c, 0)
    let counts1 := starts.foldl (fun cs s => setCount cs s 1) counts0
    let walks0 := starts.filter fun s => walkableEdges g s ≠ ∅
    let stepped := (List.range steps).foldl
      (fun (st : List (Nat × Nat) × List Nat) stepIdx =>
        let walks1 := st.2.enum.map fun iw =>
          let ns := nbrs g iw.2
          ns.getD (pick stepIdx iw.1 % ns.length) iw.2
        (walks1.foldl bumpCount st.1, walks1))
      (counts1, walks0)
    .ok (((walkable g).sort (· ≤ ·)).foldl
      (fun cs c =>
        (((subNbrs g c).sort (· ≤ ·)).foldl
          (fun cs2 n => setCount cs2 n (getCount cs2 c + getCount cs2 n)) cs))
      stepped.1)

/-- A one-cluster manifold (one point, index 0): the tree `build` produces
on a single-point dataset. -/
def exTree : MTree :=
  ⟨[⟨[0], [], 0, 0, 0⟩], 0, 1, [0]⟩

/-- A three-point manifold: root with two leaf children. -/
def exTree2 : MTree :=
  ⟨[⟨[0, 1, 2], [1, 2], 0, 5, 0⟩, ⟨[1], [], 1, 0, 1⟩, ⟨[0, 2], [], 2, 1, 1⟩], 0, 2, [1, 2]⟩

instance : IsTotal (Nat × ℚ) (fun a b => a.2 ≤ b.2) :=
  ⟨fun a b => le_total a.2 b.2⟩

instance : IsTrans (Nat × ℚ) (fun a b => a.2 ≤ b.2) :=
  ⟨fun _ _ _ h1 h2 => le_trans h1 h2⟩

instance : IsTotal (List Nat) (fun a b => a.length ≤ b.length) :=
  ⟨fun a b => Nat.le_total a.length b.length⟩

instance : IsTrans (List Nat) (fun a b => a.length ≤ b.length) :=
  ⟨fun _ _ _ h1 h2 => Nat.le_trans h1 h2⟩

/-- A five-cluster tree: root (radius 10) with children `1` (radius 2) and
`4` (radius 1); cluster `1` has leaf children `2` and `3` (radius 0).
Cluster ids double as their medoids' data indices here. -/
def exC4 : MTree :=
  ⟨[⟨[0, 1, 2, 3, 4], [1, 4], 0, 10, 0⟩,
    ⟨[0, 1, 2], [2, 3], 1, 2, 1⟩,
    ⟨[0, 1], [], 2, 0, 2⟩,
    ⟨[2], [], 3, 0, 2⟩,
    ⟨[3, 4], [], 4, 1, 1⟩], 0, 3, [2, 3, 4]⟩

/-- Medoid-to-medoid distances for `exC4` (only the pairs the candidate
propagation looks at are nonzero). -/
def DdC4 : Nat → Nat → ℚ := fun i j =>
  if i = 1 then (if j = 0 then 5 else if j = 4 then 3 else 0)
  else if i = 2 then
    (if j = 0 then 12 else if j = 1 then 4 else if j = 4 then 15 else if j = 3 then 1 else 0)
  else 0

/-- Three points with point 0 as `argradius`; the metric below makes the
poles `0` and `1`, and point `2` joins pole 0's bucket. -/
def exPC : PCluster := ⟨"", [0, 1, 2], [0, 1, 2], 0⟩

def ddC7 : Nat → Nat → ℚ := fun i j =>
  if i = 0 then (if j = 1 then 5 else if j = 2 then 2 else 0)
  else if i = 2 then (if j = 0 then 2 else if j = 1 then 4 else 0)
  else if i = 1 then (if j = 0 then 5 else 0)
  else 0

/-- A one-cluster graph (cluster id 5). -/
def gSmall : GModel :=
  ⟨{5}, fun _ => ∅, fun _ => 0, fun _ => ∅⟩

/-- A query sitting at distance 5 from every data point. -/
def exQfar : Nat → ℚ := fun _ => 5

/-- A query near point 2 of `exTree2`. -/
def exQ2 : Nat → ℚ := fun i => if i = 0 then 2 else if i = 1 then 4 else 1 / 2

deriving instance DecidableEq for Except

/-- A two-cluster graph: clusters 0 and 1 with radius 6 at medoid distance
10, candidates of each other, owning points 0 and 1. -/
def gEx : GModel :=
  ⟨{0, 1},
    fun c => if c = 0 then {(0, 0), (1, 10)} else if c = 1 then {(1, 0), (0, 10)} else ∅,
    fun c => if c ≤ 1 then 6 else 0,
    fun c => if c = 0 then {0} else if c = 1 then {1} else if c = 2 then {1} else ∅⟩

/-! ## Theorems -/

theorem mem_keys_dictUpdate {old upd : List (Nat × ℚ)} {i : Nat} :
    i ∈ keys (dictUpdate old upd) ↔ i ∈ keys old ∨ i ∈ keys upd := by
  constructor
  · intro h
    rcases List.mem_map.1 h with ⟨p, hp, rfl⟩
    rcases List.mem_append.1 hp with h1 | h1
    · exact Or.inl (List.mem_map.2 ⟨p, (List.mem_filter.1 h1).1, rfl⟩)
    · exact Or.inr (List.mem_map.2 ⟨p, h1, rfl⟩)
  · intro h
    by_cases hu : i ∈ keys upd
    · rcases List.mem_map.1 hu with ⟨p, hp, rfl⟩
      exact List.mem_map.2 ⟨p, List.mem_append.2 (Or.inr hp), rfl⟩
    · rcases h with h1 | h1
      · rcases List.mem_map.1 h1 with ⟨p, hp, rfl⟩
        refine List.mem_map.2 ⟨p, List.mem_append.2 (Or.inl (List.mem_filter.2 ⟨hp, ?_⟩)), rfl⟩
        simpa using hu
      · exact absurd h1 hu

theorem mem_dictUpdate {old upd : List (Nat × ℚ)} {p : Nat × ℚ}
    (h : p ∈ dictUpdate old upd) : p ∈ old ∨ p ∈ upd := by
  rcases List.mem_append.1 h with h1 | h1
  · exact Or.inl (List.mem_filter.1 h1).1
  · exact Or.inr h1

/-- Every entry the search loop returns carries the query-to-medoid
distance of its cluster and satisfies the overlap bound, provided the
incoming dicts do. -/
theorem tree_search_inner_good (m : MTree) (q : Nat → ℚ) (radius : ℚ) :
    ∀ (fuel : Nat) (cands results : List (Nat × ℚ)),
      (∀ p ∈ cands, p.2 = q (cl m p.1).argmedoid ∧ p.2 ≤ radius + (cl m p.1).radius) →
      (∀ p ∈ results, p.2 = q (cl m p.1).argmedoid ∧ p.2 ≤ radius + (cl m p.1).radius) →
      ∀ p ∈ tree_search_inner m q radius fuel cands results,
        p.2 = q (cl m p.1).argmedoid ∧ p.2 ≤ radius + (cl m p.1).radius := by
  intro fuel
  induction fuel with
  | zero =>
      intro cands results hc hr p hp
      rcases mem_dictUpdate hp with h | h
      · exact hr p h
      · exact hc p h
  | succ n ih =>
      intro cands results hc hr p hp
      simp only [tree_search_inner] at hp
      have hr1 : ∀ p ∈ dictUpdate results (cands.filter fun p => (cl m p.1).children = []),
          p.2 = q (cl m p.1).argmedoid ∧ p.2 ≤ radius + (cl m p.1).radius := by
        intro p hp1
        rcases mem_dictUpdate hp1 with h | h
        · exact hr p h
        · exact hc p (List.mem_filter.1 h).1
      split at hp
      · rcases mem_dictUpdate hp with h | h
        · exact hr1 p h
        · exact hc p (List.mem_filter.1 h).1
      · split at hp
        next hemp =>
          rcases mem_dictUpdate hp with h | h
          · exact hr1 p h
          · rw [hemp] at h
            exact absurd h (List.not_mem_nil p)
        next hne =>
          refine ih _ _ ?_ hr1 p hp
          intro p hp2
          have h1 := List.mem_filter.1 hp2
          rcases List.mem_map.1 h1.1 with ⟨c, _, rfl⟩
          exact ⟨rfl, by simpa using h1.2⟩

/-- Every entry the search loop returns lies at depth at most `B`, when
the incoming candidates have `fuel` depth budget left. -/
theorem tree_search_inner_depthBound (m : MTree) (q : Nat → ℚ) (radius : ℚ)
    (hvc : ∀ i < m.cls.length, ∀ c ∈ (cl m i).children, c < m.cls.length)
    (hcd : ∀ i < m.cls.length, ∀ c ∈ (cl m i).children, (cl m c).depth = (cl m i).depth + 1) :
    ∀ (fuel : Nat) (cands results : List (Nat × ℚ)) (B : Nat),
      (∀ p ∈ cands, p.1 < m.cls.length ∧ (cl m p.1).depth + fuel ≤ B) →
      (∀ p ∈ results, (cl m p.1).depth ≤ B) →
      ∀ p ∈ tree_search_inner m q radius fuel cands results, (cl m p.1).depth ≤ B := by
  intro fuel
  induction fuel with
  | zero =>
      intro cands results B hc hr p hp
      rcases mem_dictUpdate hp with h | h
      · exact hr p h
      · simpa using (hc p h).2
  | succ n ih =>
      intro cands results B hc hr p hp
      simp only [tree_search_inner] at hp
      have hr1 : ∀ p ∈ dictUpdate results (cands.filter fun p => (cl m p.1).children = []),
          (cl m p.1).depth ≤ B := by
        intro p hp1
        rcases mem_dictUpdate hp1 with h | h
        · exact hr p h
        · exact le_trans (Nat.le_add_right _ _) (hc p (List.mem_filter.1 h).1).2
      split at hp
      · rcases mem_dictUpdate hp with h | h
        · exact hr1 p h
        · exact le_trans (Nat.le_add_right _ _) (hc p (List.mem_filter.1 h).1).2
      · split at hp
        next hemp =>
          rcases mem_dictUpdate hp with h | h
          · exact hr1 p h
          · rw [hemp] at h
            exact absurd h (List.not_mem_nil p)
        next hne =>
          refine ih _ _ B ?_ hr1 p hp
          intro p hp2
          have h1 := List.mem_filter.1 hp2
          rcases List.mem_map.1 h1.1 with ⟨c, hcmem, rfl⟩
          rcases List.mem_flatMap.1 hcmem with ⟨pr, hpr, hcc⟩
          have hpr1 : pr ∈ cands := (List.mem_filter.1 hpr).1
          have hprv := hc pr hpr1
          have hcv : c < m.cls.length := hvc pr.1 hprv.1 c hcc
          have hdc : (cl m c).depth = (cl m pr.1).depth + 1 := hcd pr.1 hprv.1 c hcc
          refine ⟨hcv, ?_⟩
          show (cl m c).depth + n ≤ B
          have := hprv.2
          omega

theorem exTree2_wf : MWF exTree2 := by
  constructor <;> decide

/-- Claim C2, counterexample: with `depth == self.depth` the source returns
`{self: d}` without any overlap test (manifold.py:350-351); on a
radius-0 one-point cluster and a query at distance 5, `tree_search` with
search radius 1 returns the cluster even though
`d > cluster.radius + radius`. -/
theorem tree_search_counterexample :
    tree_search exTree exQfar 0 1 ((0 : Nat) : Int) = .ok [(0, 5)] ∧
    ¬ (exQfar (cl exTree 0).argmedoid ≤ (cl exTree 0).radius + 1) := by
  constructor <;> norm_num [tree_search, exTree, exQfar, cl]

/-- Claim C2, amended: when the target depth equals the cluster's depth,
`tree_search` returns `{self: d(medoid, point)}` unconditionally (no
overlap test); when the target depth is strictly larger, every returned
cluster has depth at most the target, carries its query-to-medoid
distance, and overlaps the query ball. -/
theorem tree_search_corrected (m : MTree) (wf : MWF m) (q : Nat → ℚ) (c : Nat)
    (radius : ℚ) (D : Nat) (hc : c < m.cls.length) :
    (D = (cl m c).depth → tree_search m q c radius (D : Int) = .ok [(c, q (cl m c).argmedoid)]) ∧
    ((cl m c).depth < D → ∀ res, tree_search m q c radius (D : Int) = .ok res →
      ∀ p ∈ res, (cl m p.1).depth ≤ D ∧ p.2 = q (cl m p.1).argmedoid ∧
        q (cl m p.1).argmedoid ≤ (cl m p.1).radius + radius) := by
  have h1 : ¬((D : Int) = -1) := by omega
  constructor
  · intro hD
    simp only [tree_search, if_neg h1]
    rw [if_neg (by omega : ¬((D : Int) < ((cl m c).depth : Int))),
      if_pos (by omega : ((cl m c).depth : Int) = (D : Int))]
  · intro hlt res hres p hp
    simp only [tree_search, if_neg h1] at hres
    rw [if_neg (by omega : ¬((D : Int) < ((cl m c).depth : Int))),
      if_neg (by omega : ¬(((cl m c).depth : Int) = (D : Int)))] at hres
    split at hres
    next hov =>
      have hres1 : tree_search_inner m q radius ((D : Int).toNat - (cl m c).depth)
          [(c, q (cl m c).argmedoid)] [] = res := by
        injection hres
      subst hres1
      have hgood := tree_search_inner_good m q radius ((D : Int).toNat - (cl m c).depth)
        [(c, q (cl m c).argmedoid)] []
        (by
          intro p hp1
          rcases List.mem_singleton.1 hp1 with rfl
          exact ⟨rfl, by linarith⟩)
        (by intro p hp1; exact absurd hp1 (List.not_mem_nil p)) p hp
      have hdepth := tree_search_inner_depthBound m q radius wf.validChildren wf.childDepth
        ((D : Int).toNat - (cl m c).depth) [(c, q (cl m c).argmedoid)] [] D
        (by
          intro p hp1
          rcases List.mem_singleton.1 hp1 with rfl
          refine ⟨hc, ?_⟩
          show (cl m c).depth + ((D : Int).toNat - (cl m c).depth) ≤ D
          omega)
        (by intro p hp1; exact absurd hp1 (List.not_mem_nil p)) p hp
      exact ⟨hdepth, hgood.1, by rw [← hgood.1]; exact hgood.2.trans_eq (add_comm _ _)⟩
    next hov =>
      have hres1 : ([] : List (Nat × ℚ)) = res := by injection hres
      subst hres1
      exact absurd hp (List.not_mem_nil p)

theorem exTree2_search : tree_search exTree2 exQ2 0 1 ((2 : Nat) : Int) = .ok [(2, 1 / 2)] := by
  have hstep : ∀ fuel, tree_search_inner exTree2 exQ2 1 (fuel + 1) [(0, 2)] []
      = tree_search_inner exTree2 exQ2 1 fuel [(2, 1 / 2)] [] := by
    intro fuel
    simp only [tree_search_inner]
    norm_num [exTree2, exQ2, cl, dictUpdate, keys, List.filter_cons, List.flatMap_cons,
      List.flatMap_nil, List.map_cons, List.map_nil, List.cons_ne_nil]
  have hbase : tree_search_inner exTree2 exQ2 1 1 [(2, 1 / 2)] [] = [(2, 1 / 2)] := by
    norm_num [tree_search_inner, exTree2, cl, dictUpdate, keys, List.filter_cons,
      List.flatMap_cons, List.flatMap_nil, List.cons_ne_nil]
  have hrun : tree_search_inner exTree2 exQ2 1 2 [(0, 2)] [] = [(2, 1 / 2)] :=
    (hstep 1).trans hbase
  rw [tree_search]
  norm_num [exTree2, exQ2, cl, Int.toNat_ofNat]
  exact hrun

theorem tree_search_corrected_witness :
    ((cl exTree2 2).depth ≤ 2 ∧ (1 : ℚ) / 2 = exQ2 (cl exTree2 2).argmedoid ∧
      exQ2 (cl exTree2 2).argmedoid ≤ (cl exTree2 2).radius + 1) :=
  (tree_search_corrected exTree2 exTree2_wf exQ2 0 1 2 (by decide)).2 (by decide)
    [((2 : Nat), (1 : ℚ) / 2)] exTree2_search
    ((2 : Nat), (1 : ℚ) / 2) (by simp)

/-- Claim C3, counterexample: `tree_search` replaces `depth = -1` by
`len(layers)` (manifold.py:344-345), not `len(layers) - 1`, and the two
calls do not behave alike: on a one-cluster manifold with a
non-overlapping query, depth `-1` descends under the (failing) overlap
guard and returns `{}`, while depth `len(layers)-1 = 0` hits the
equal-depth branch and returns the cluster. -/
theorem tree_search_neg_one_counterexample :
    tree_search exTree exQfar 0 1 (-1) = .ok [] ∧
    tree_search exTree exQfar 0 1 ((exTree.numLayers : Int) - 1) = .ok [(0, 5)] ∧
    (Except.ok ([] : List (Nat × ℚ)) ≠ (.ok [(0, 5)] : Except SearchErr (List (Nat × ℚ)))) := by
  refine ⟨?_, ?_, ?_⟩ <;>
    norm_num [tree_search, tree_search_inner, exTree, exQfar, cl, dictUpdate, keys]

/-- Claim C3, amended: `depth = -1` is replaced by `len(layers)` (one past
the deepest layer's index), so the call behaves exactly as
`tree_search(point, radius, len(layers))`; and every nonnegative depth
below the cluster's own depth raises the invalid-depth error. -/
theorem tree_search_neg_one_corrected (m : MTree) (q : Nat → ℚ) (c : Nat) (radius : ℚ) :
    tree_search m q c radius (-1) = tree_search m q c radius (m.numLayers : Int) ∧
    ∀ d : Int, 0 ≤ d → d < ((cl m c).depth : Int) →
      tree_search m q c radius d = .error .invalidDepth := by
  constructor
  · have h1 : ¬((m.numLayers : Int) = -1) := by omega
    simp only [tree_search, if_neg h1]
    norm_num
  · intro d hd0 hdlt
    have h1 : ¬(d = -1) := by omega
    simp only [tree_search, if_neg h1]
    rw [if_pos hdlt]

theorem tree_search_neg_one_corrected_witness :
    tree_search exTree2 exQ2 1 1 (-1) = tree_search exTree2 exQ2 1 1 (exTree2.numLayers : Int) ∧
    tree_search exTree2 exQ2 1 1 0 = .error .invalidDepth :=
  ⟨(tree_search_neg_one_corrected exTree2 exQ2 1 1).1,
   (tree_search_neg_one_corrected exTree2 exQ2 1 1).2 0 (by decide) (by decide)⟩

theorem le_listMax {l : List ℚ} {x : ℚ} (h : x ∈ l) : x ≤ listMax l := by
  induction l with
  | nil => cases h
  | cons a t ih =>
      rcases List.mem_cons.1 h with rfl | h1
      · exact le_max_left _ _
      · exact le_trans (ih h1) (le_max_right _ _)

theorem listMax_nonneg (l : List ℚ) : 0 ≤ listMax l := by
  induction l with
  | nil => exact le_refl 0
  | cons a t ih => exact le_trans ih (le_max_right _ _)

theorem le_natBound (x : ℚ) : x ≤ (natBound x : ℚ) := by
  rcases le_or_lt x 0 with h | h
  · have h1 : (0 : ℚ) ≤ (natBound x : ℚ) := by positivity
    linarith
  · have hnum : ((x.num.toNat : ℤ) : ℚ) = (x.num : ℚ) := by
      rw [Int.toNat_of_nonneg (Rat.num_pos.2 h).le]
    have hx : x = ((x.num.toNat : ℚ)) / ((x.den : ℚ)) := by
      rw [show ((x.num.toNat : ℚ)) = ((x.num : ℚ)) from by exact_mod_cast hnum]
      exact (Rat.num_div_den x).symm
    have h1 : ⌊x⌋₊ = x.num.toNat / x.den := by
      conv_lhs => rw [hx]
      exact Rat.natFloor_natCast_div_natCast _ _
    have h2 : x < (⌊x⌋₊ : ℚ) + 1 := Nat.lt_floor_add_one x
    have h3 : ((natBound x : ℕ) : ℚ) = ((⌊x⌋₊ : ℕ) : ℚ) + 1 := by
      unfold natBound
      rw [← h1]
      push_cast
      ring
    rw [h3]
    linarith

theorem cl_mem {m : MTree} {i : Nat} (h : i < m.cls.length) : cl m i ∈ m.cls := by
  unfold cl
  rw [List.getD_eq_getElem _ _ h]
  exact List.getElem_mem h

theorem medoid_le_qBound {m : MTree} {q : Nat → ℚ} {i : Nat} (h : i < m.cls.length) :
    q (cl m i).argmedoid ≤ qBound m q :=
  le_listMax (List.mem_append.2 (Or.inl (List.mem_map.2 ⟨cl m i, cl_mem h, rfl⟩)))

theorem point_le_qBound {m : MTree} {q : Nat → ℚ} {i p : Nat} (h : i < m.cls.length)
    (hp : p ∈ (cl m i).argpoints) : q p ≤ qBound m q :=
  le_listMax (List.mem_append.2 (Or.inr
    (List.mem_map.2 ⟨p, List.mem_flatMap.2 ⟨cl m i, cl_mem h, hp⟩, rfl⟩)))

theorem mem_of_mem_dedupByAux {key : α → Nat} :
    ∀ {fuel : Nat} {l : List α} {p : α}, p ∈ dedupByAux key fuel l → p ∈ l := by
  intro fuel
  induction fuel with
  | zero => intro l p h; cases h
  | succ n ih =>
      intro l p h
      match l with
      | [] => cases h
      | a :: rest =>
          rcases List.mem_cons.1 h with rfl | h1
          · exact List.mem_cons_self _ _
          · exact List.mem_cons.2 (Or.inr (List.mem_filter.1 (ih h1)).1)

theorem mem_map_dedupByAux {key : α → Nat} :
    ∀ {fuel : Nat} {l : List α}, l.length ≤ fuel →
      ∀ {x : Nat}, (x ∈ (dedupByAux key fuel l).map key ↔ x ∈ l.map key) := by
  intro fuel
  induction fuel with
  | zero =>
      intro l hl x
      rw [List.length_eq_zero.1 (Nat.le_zero.1 hl)]
      simp [dedupByAux]
  | succ n ih =>
      intro l hl x
      match l with
      | [] => simp [dedupByAux]
      | a :: rest =>
          have hlen : (rest.filter fun b => key b ≠ key a).length ≤ n :=
            le_trans (List.length_filter_le _ _) (Nat.lt_succ_iff.1 hl)
          simp only [dedupByAux, List.map_cons, List.mem_cons, ih hlen]
          constructor
          · rintro (rfl | h1)
            · exact Or.inl rfl
            · rcases List.mem_map.1 h1 with ⟨p, hp, rfl⟩
              exact Or.inr (List.mem_map.2 ⟨p, (List.mem_filter.1 hp).1, rfl⟩)
          · rintro (rfl | h1)
            · exact Or.inl rfl
            · rcases List.mem_map.1 h1 with ⟨p, hp, rfl⟩
              by_cases hk : key p = key a
              · exact Or.inl hk
              · exact Or.inr (List.mem_map.2
                  ⟨p, List.mem_filter.2 ⟨hp, by simpa using hk⟩, rfl⟩)

theorem nodup_map_dedupByAux {key : α → Nat} :
    ∀ {fuel : Nat} {l : List α}, l.length ≤ fuel →
      ((dedupByAux key fuel l).map key).Nodup := by
  intro fuel
  induction fuel with
  | zero => intro l _; simp [dedupByAux]
  | succ n ih =>
      intro l hl
      match l with
      | [] => simp [dedupByAux]
      | a :: rest =>
          have hlen : (rest.filter fun b => key b ≠ key a).length ≤ n :=
            le_trans (List.length_filter_le _ _) (Nat.lt_succ_iff.1 hl)
          simp only [dedupByAux, List.map_cons, List.nodup_cons]
          refine ⟨?_, ih hlen⟩
          intro hmem
          rw [mem_map_dedupByAux hlen] at hmem
          rcases List.mem_map.1 hmem with ⟨p, hp, hk⟩
          exact absurd hk (by simpa using (List.mem_filter.1 hp).2)

/-- Any cluster property closed under taking children propagates from the
incoming dicts to every key the search loop returns. -/
theorem tree_search_inner_keys_pred (m : MTree) (q : Nat → ℚ) (radius : ℚ)
    (P : Nat → Prop) (hP : ∀ i, P i → ∀ c ∈ (cl m i).children, P c) :
    ∀ (fuel : Nat) (cands results : List (Nat × ℚ)),
      (∀ p ∈ cands, P p.1) → (∀ p ∈ results, P p.1) →
      ∀ p ∈ tree_search_inner m q radius fuel cands results, P p.1 := by
  intro fuel
  induction fuel with
  | zero =>
      intro cands results hc hr p hp
      rcases mem_dictUpdate hp with h | h
      · exact hr p h
      · exact hc p h
  | succ n ih =>
      intro cands results hc hr p hp
      simp only [tree_search_inner] at hp
      have hr1 : ∀ p ∈ dictUpdate results (cands.filter fun p => (cl m p.1).children = []),
          P p.1 := by
        intro p hp1
        rcases mem_dictUpdate hp1 with h | h
        · exact hr p h
        · exact hc p (List.mem_filter.1 h).1
      split at hp
      · rcases mem_dictUpdate hp with h | h
        · exact hr1 p h
        · exact hc p (List.mem_filter.1 h).1
      · split at hp
        next hemp =>
          rcases mem_dictUpdate hp with h | h
          · exact hr1 p h
          · rw [hemp] at h
            exact absurd h (List.not_mem_nil p)
        next hne =>
          refine ih _ _ ?_ hr1 p hp
          intro p hp2
          have h1 := List.mem_filter.1 hp2
          rcases List.mem_map.1 h1.1 with ⟨c, hcmem, rfl⟩
          rcases List.mem_flatMap.1 hcmem with ⟨pr, hpr, hcc⟩
          exact hP pr.1 (hc pr (List.mem_filter.1 hpr).1) c hcc

/-- Completeness of the depth-limited descent: once the search radius
dominates `qBound`, every point covered by the incoming dicts stays
covered by some returned cluster. -/
theorem tree_search_inner_covers (m : MTree) (q : Nat → ℚ) (radius : ℚ) (wf : MWF m)
    (hrad : qBound m q ≤ radius) :
    ∀ (fuel : Nat) (cands results : List (Nat × ℚ)) (pt : Nat),
      ((∃ i ∈ keys cands, i < m.cls.length ∧ pt ∈ (cl m i).argpoints) ∨
        (∃ i ∈ keys results, i < m.cls.length ∧ pt ∈ (cl m i).argpoints)) →
      ∃ i ∈ keys (tree_search_inner m q radius fuel cands results),
        i < m.cls.length ∧ pt ∈ (cl m i).argpoints := by
  intro fuel
  induction fuel with
  | zero =>
      intro cands results pt h
      rcases h with ⟨i, hi, hv⟩ | ⟨i, hi, hv⟩
      · exact ⟨i, mem_keys_dictUpdate.2 (Or.inr hi), hv⟩
      · exact ⟨i, mem_keys_dictUpdate.2 (Or.inl hi), hv⟩
  | succ n ih =>
      intro cands results pt h
      simp only [tree_search_inner]
      rcases h with ⟨i, hi, hiv, hipt⟩ | ⟨i, hi, hiv, hipt⟩
      · rcases List.mem_map.1 hi with ⟨p, hp, rfl⟩
        by_cases hleaf : (cl m p.1).children = []
        · -- the covering cluster moves into the results dict
          have hres1 : p.1 ∈ keys (dictUpdate results
              (cands.filter fun p => (cl m p.1).children = [])) :=
            mem_keys_dictUpdate.2 (Or.inr (List.mem_map.2
              ⟨p, List.mem_filter.2 ⟨hp, by simpa using hleaf⟩, rfl⟩))
          split
          · exact ⟨p.1, mem_keys_dictUpdate.2 (Or.inl hres1), hiv, hipt⟩
          · split
            · exact ⟨p.1, mem_keys_dictUpdate.2 (Or.inl hres1), hiv, hipt⟩
            · exact ih _ _ pt (Or.inr ⟨p.1, hres1, hiv, hipt⟩)
        · -- the covering cluster descends to one of its children
          rcases wf.childCover p.1 hiv hleaf pt hipt with ⟨c, hcc, hcpt⟩
          have hp1 : p ∈ cands.filter fun p => (cl m p.1).children ≠ [] :=
            List.mem_filter.2 ⟨hp, by simpa using hleaf⟩
          have hcchild : c ∈ (cands.filter fun p => (cl m p.1).children ≠ []).flatMap
              fun p => (cl m p.1).children :=
            List.mem_flatMap.2 ⟨p, hp1, hcc⟩
          have hcv : c < m.cls.length := wf.validChildren p.1 hiv c hcc
          have hcpass : q (cl m c).argmedoid ≤ radius + (cl m c).radius := by
            have h1 := medoid_le_qBound (m := m) (q := q) hcv
            have h2 := wf.radiusNonneg c hcv
            linarith
          have hc2 : ((c, q (cl m c).argmedoid) : Nat × ℚ) ∈
              (((cands.filter fun p => (cl m p.1).children ≠ []).flatMap
                  fun p => (cl m p.1).children).map
                fun c => (c, q (cl m c).argmedoid)).filter
                fun p => p.2 ≤ radius + (cl m p.1).radius :=
            List.mem_filter.2 ⟨List.mem_map.2 ⟨c, hcchild, rfl⟩, by simpa using hcpass⟩
          rw [if_neg (List.ne_nil_of_mem hcchild)]
          rw [if_neg (List.ne_nil_of_mem hc2)]
          exact ih _ _ pt (Or.inl ⟨c, List.mem_map.2 ⟨_, hc2, rfl⟩, hcv, hcpt⟩)
      · -- covered by results: results keys only grow
        have hres1 : i ∈ keys (dictUpdate results
            (cands.filter fun p => (cl m p.1).children = [])) :=
          mem_keys_dictUpdate.2 (Or.inl hi)
        split
        · exact ⟨i, mem_keys_dictUpdate.2 (Or.inl hres1), hiv, hipt⟩
        · split
          · exact ⟨i, mem_keys_dictUpdate.2 (Or.inl hres1), hiv, hipt⟩
          · exact ih _ _ pt (Or.inr ⟨i, hres1, hiv, hipt⟩)

theorem numLayers_pos {m : MTree} (wf : MWF m) : 1 ≤ m.numLayers := by
  have := wf.depthLe m.root wf.rootValid
  omega

/-- `find_clusters` is the root's pruned descent when the query ball
overlaps the root, and empty otherwise. -/
theorem find_clusters_eq (m : MTree) (q : Nat → ℚ) (radius : ℚ) (wf : MWF m) :
    (¬ q (cl m m.root).argmedoid ≤ (cl m m.root).radius + radius ∧
      find_clusters m q radius = []) ∨
    (q (cl m m.root).argmedoid ≤ (cl m m.root).radius + radius ∧
      find_clusters m q radius =
        tree_search_inner m q radius m.numLayers [(m.root, q (cl m m.root).argmedoid)] []) := by
  have hnl := numLayers_pos wf
  have h1 : ¬((m.numLayers : Int) = -1) := by omega
  have h2 : ¬((m.numLayers : Int) < ((cl m m.root).depth : Int)) := by
    rw [wf.rootDepth]
    omega
  have h3 : ¬(((cl m m.root).depth : Int) = (m.numLayers : Int)) := by
    rw [wf.rootDepth]
    omega
  unfold find_clusters
  simp only [tree_search, if_neg h1, if_neg h2, if_neg h3]
  by_cases hov : q (cl m m.root).argmedoid ≤ (cl m m.root).radius + radius
  · refine Or.inr ⟨hov, ?_⟩
    rw [if_pos hov]
    have h4 : (m.numLayers : Int).toNat - (cl m m.root).depth = m.numLayers := by
      rw [wf.rootDepth, Int.toNat_natCast]
      omega
    rw [h4]
  · refine Or.inl ⟨hov, ?_⟩
    rw [if_neg hov]

/-- Membership in the keys of `find_points`: exactly the points of a found
cluster that lie within the radius. -/
theorem mem_keys_find_points (m : MTree) (q : Nat → ℚ) (radius : ℚ) (pt : Nat) :
    pt ∈ keys (find_points m q radius) ↔
      ((∃ pr ∈ find_clusters m q radius, pt ∈ (cl m pr.1).argpoints) ∧ q pt ≤ radius) := by
  have hperm := (List.perm_insertionSort (fun a b : Nat × ℚ => a.2 ≤ b.2)
    (dedupKeys (((find_clusters m q radius).flatMap fun p =>
      (cl m p.1).argpoints).map (fun p => (p, q p)) |>.filter fun pr => pr.2 ≤ radius))).map
    Prod.fst
  unfold find_points
  simp only [keys]
  rw [hperm.mem_iff]
  simp only [dedupKeys, dedupBy]
  rw [mem_map_dedupByAux (le_refl _)]
  constructor
  · intro h
    rcases List.mem_map.1 h with ⟨p, hp, rfl⟩
    have h1 := List.mem_filter.1 hp
    rcases List.mem_map.1 h1.1 with ⟨c, hcmem, rfl⟩
    rcases List.mem_flatMap.1 hcmem with ⟨pr, hpr, hcpt⟩
    exact ⟨⟨pr, hpr, hcpt⟩, by simpa using h1.2⟩
  · rintro ⟨⟨pr, hpr, hpt⟩, hle⟩
    refine List.mem_map.2 ⟨(pt, q pt), List.mem_filter.2 ⟨?_, by simpa using hle⟩, rfl⟩
    exact List.mem_map.2 ⟨pt, List.mem_flatMap.2 ⟨pr, hpr, hpt⟩, rfl⟩

/-- Soundness side of the count: every key `find_points` returns is a point
of the manifold. -/
theorem find_points_keys_sub (m : MTree) (q : Nat → ℚ) (radius : ℚ) (wf : MWF m) :
    ∀ pt ∈ keys (find_points m q radius), pt ∈ (cl m m.root).argpoints := by
  intro pt hpt
  rcases (mem_keys_find_points m q radius pt).1 hpt with ⟨⟨pr, hpr, hcpt⟩, _⟩
  rcases find_clusters_eq m q radius wf with ⟨_, hfc⟩ | ⟨_, hfc⟩
  · rw [hfc] at hpr
    exact absurd hpr (List.not_mem_nil pr)
  · rw [hfc] at hpr
    have hP := tree_search_inner_keys_pred m q radius
      (fun i => i < m.cls.length ∧ ∀ x ∈ (cl m i).argpoints, x ∈ (cl m m.root).argpoints)
      (by
        rintro i ⟨hiv, hsub⟩ c hcc
        exact ⟨wf.validChildren i hiv c hcc,
          fun x hx => hsub x (wf.childSub i hiv c hcc x hx)⟩)
      m.numLayers [(m.root, q (cl m m.root).argmedoid)] []
      (by
        intro p hp
        rcases List.mem_singleton.1 hp with rfl
        exact ⟨wf.rootValid, fun x hx => hx⟩)
      (by intro p hp; exact absurd hp (List.not_mem_nil p))
      pr hpr
    exact hP.2 pt hcpt

/-- Completeness side of the count: with a radius past `qBound`, every
point of the manifold is returned. -/
theorem find_points_keys_complete (m : MTree) (q : Nat → ℚ) (radius : ℚ) (wf : MWF m)
    (hrad : qBound m q ≤ radius) :
    ∀ pt ∈ (cl m m.root).argpoints, pt ∈ keys (find_points m q radius) := by
  intro pt hpt
  have hov : q (cl m m.root).argmedoid ≤ (cl m m.root).radius + radius := by
    have h1 := medoid_le_qBound (m := m) (q := q) wf.rootValid
    have h2 := wf.radiusNonneg m.root wf.rootValid
    linarith
  rcases find_clusters_eq m q radius wf with ⟨hno, _⟩ | ⟨_, hfc⟩
  · exact absurd hov hno
  · refine (mem_keys_find_points m q radius pt).2 ⟨?_, ?_⟩
    · have := tree_search_inner_covers m q radius wf hrad m.numLayers
        [(m.root, q (cl m m.root).argmedoid)] [] pt
        (Or.inl ⟨m.root, by simp [keys], wf.rootValid, hpt⟩)
      rcases this with ⟨i, hik, hiv, hipt⟩
      rcases List.mem_map.1 hik with ⟨pr, hpr, rfl⟩
      rw [hfc]
      exact ⟨pr, hpr, hipt⟩
    · exact le_trans (point_le_qBound wf.rootValid hpt) hrad

theorem keys_find_points_nodup (m : MTree) (q : Nat → ℚ) (radius : ℚ) :
    (keys (find_points m q radius)).Nodup := by
  have hperm := (List.perm_insertionSort (fun a b : Nat × ℚ => a.2 ≤ b.2)
    (dedupKeys (((find_clusters m q radius).flatMap fun p =>
      (cl m p.1).argpoints).map (fun p => (p, q p)) |>.filter fun pr => pr.2 ≤ radius))).map
    Prod.fst
  unfold find_points
  simp only [keys]
  refine hperm.nodup_iff.2 ?_
  simp only [dedupKeys, dedupBy]
  exact nodup_map_dedupByAux (le_refl _)

theorem find_points_length (m : MTree) (q : Nat → ℚ) (radius : ℚ) :
    (find_points m q radius).length = (keys (find_points m q radius)).length := by
  unfold keys
  rw [List.length_map]

theorem find_points_length_le (m : MTree) (q : Nat → ℚ) (radius : ℚ) (wf : MWF m) :
    (find_points m q radius).length ≤ nPoints m := by
  rw [find_points_length]
  have h1 : (keys (find_points m q radius)).toFinset ⊆ (cl m m.root).argpoints.toFinset := by
    intro x hx
    rw [List.mem_toFinset] at hx ⊢
    exact find_points_keys_sub m q radius wf x hx
  calc (keys (find_points m q radius)).length
      = (keys (find_points m q radius)).toFinset.card :=
        (List.toFinset_card_of_nodup (keys_find_points_nodup m q radius)).symm
    _ ≤ (cl m m.root).argpoints.toFinset.card := Finset.card_le_card h1
    _ ≤ (cl m m.root).argpoints.length := (cl m m.root).argpoints.toFinset_card_le

theorem find_points_length_eq (m : MTree) (q : Nat → ℚ) (radius : ℚ) (wf : MWF m)
    (hrad : qBound m q ≤ radius) :
    (find_points m q radius).length = nPoints m := by
  rw [find_points_length]
  have h1 : (keys (find_points m q radius)).toFinset = (cl m m.root).argpoints.toFinset := by
    ext x
    rw [List.mem_toFinset, List.mem_toFinset]
    exact ⟨find_points_keys_sub m q radius wf x,
      find_points_keys_complete m q radius wf hrad x⟩
  calc (keys (find_points m q radius)).length
      = (keys (find_points m q radius)).toFinset.card :=
        (List.toFinset_card_of_nodup (keys_find_points_nodup m q radius)).symm
    _ = (cl m m.root).argpoints.toFinset.card := by rw [h1]
    _ = (cl m m.root).argpoints.length := List.toFinset_card_of_nodup wf.rootNodup

theorem knnRadius_pos (m : MTree) : 0 < knnRadius m :=
  lt_of_lt_of_le (by norm_num) (le_max_right _ _)

/-- The radius-doubling loop can never return when more neighbors are
requested than the manifold has points: `find_points` never reaches `k`
results.  This is the non-termination of the source's `while` loop. -/
theorem find_knn_loop_none (m : MTree) (q : Nat → ℚ) (k : Nat) (wf : MWF m)
    (hk : nPoints m < k) :
    ∀ (fuel : Nat) (radius : ℚ), find_knn_loop m q k fuel radius = none := by
  intro fuel
  induction fuel with
  | zero => intro radius; rfl
  | succ n ih =>
      intro radius
      simp only [find_knn_loop]
      rw [if_pos (lt_of_le_of_lt (find_points_length_le m q radius wf) hk)]
      exact ih (radius * 2)

/-- The radius-doubling loop succeeds once the fuel lets the radius pass
`qBound`, returning the first `k` of the sorted results. -/
theorem find_knn_loop_some (m : MTree) (q : Nat → ℚ) (k : Nat) (wf : MWF m)
    (_hk1 : 1 ≤ k) (hk : k ≤ nPoints m) :
    ∀ (fuel : Nat) (radius : ℚ), 0 < fuel → qBound m q ≤ radius * 2 ^ (fuel - 1) →
      ∃ l, find_knn_loop m q k fuel radius = some l ∧ l.length = k ∧
        List.Sorted (fun a b : Nat × ℚ => a.2 ≤ b.2) l := by
  intro fuel
  induction fuel with
  | zero => intro radius h0; omega
  | succ n ih =>
      intro radius _ hrad
      simp only [find_knn_loop]
      by_cases hlt : (find_points m q radius).length < k
      · rw [if_pos hlt]
        match n, ih with
        | 0, _ =>
            exfalso
            have h1 : qBound m q ≤ radius := by simpa using hrad
            have h2 := find_points_length_eq m q radius wf h1
            omega
        | n' + 1, ih =>
            refine ih (radius * 2) (Nat.succ_pos n') ?_
            have h2 : radius * 2 * 2 ^ (n' + 1 - 1) = radius * 2 ^ (n' + 1) := by
              rw [Nat.add_sub_cancel]
              ring
            rw [h2]
            simpa using hrad
      · rw [if_neg hlt]
        refine ⟨_, rfl, ?_, ?_⟩
        · rw [List.length_take, List.length_insertionSort]
          omega
        · exact List.Pairwise.sublist (List.take_sublist _ _)
            (List.sorted_insertionSort _ _)

theorem fuel_reaches_qBound (m : MTree) (q : Nat → ℚ) :
    qBound m q ≤ knnRadius m * 2 ^ ((natBound (qBound m q / knnRadius m) + 1) - 1) := by
  have hr := knnRadius_pos m
  rw [Nat.add_sub_cancel]
  rw [← div_le_iff₀' hr]
  calc qBound m q / knnRadius m
      ≤ (natBound (qBound m q / knnRadius m) : ℚ) := le_natBound _
    _ ≤ ((2 ^ natBound (qBound m q / knnRadius m) : ℕ) : ℚ) := by
        exact_mod_cast (Nat.lt_two_pow _).le
    _ = 2 ^ natBound (qBound m q / knnRadius m) := by push_cast; ring

/-- Claim C1, counterexample: on a one-point manifold, `find_knn(q, 2)`
never terminates — `find_points` can only ever return the single point, so
`len(results) < k` holds at every doubling and the `while` loop runs
forever (the model's `none`; `find_knn_loop_none` shows every fuel gives
`none`).  The claim's promise of `min(k, N) = 1` results is therefore
false. -/
theorem find_knn_counterexample :
    find_knn exTree (fun _ => 0) 2 = none := by
  have hwf : MWF exTree := by constructor <;> decide
  exact find_knn_loop_none exTree (fun _ => 0) 2 hwf (by decide) _ _

/-- Claim C1, amended: `find_knn` starts at
`radius = max(mean(layers[-1] radii), 1e-16)` and doubles until
`find_points` returns at least `k` results; for `1 <= k <= N` it returns
exactly `k` pairs sorted ascending by distance, but for `k > N` the
doubling loop never terminates (`find_knn_loop` is `none` at every
fuel). -/
theorem find_knn_corrected (m : MTree) (wf : MWF m) (q : Nat → ℚ) (k : Nat)
    (hk1 : 1 ≤ k) :
    (k ≤ nPoints m → ∃ l, find_knn m q k = some l ∧ l.length = k ∧
      List.Sorted (fun a b : Nat × ℚ => a.2 ≤ b.2) l) ∧
    (nPoints m < k → ∀ (fuel : Nat) (radius : ℚ), find_knn_loop m q k fuel radius = none) := by
  constructor
  · intro hk
    exact find_knn_loop_some m q k wf hk1 hk _ _ (Nat.succ_pos _) (fuel_reaches_qBound m q)
  · intro hk
    exact find_knn_loop_none m q k wf hk

theorem find_knn_corrected_witness :
    ∃ l, find_knn exTree2 exQ2 2 = some l ∧ l.length = 2 ∧
      List.Sorted (fun a b : Nat × ℚ => a.2 ≤ b.2) l :=
  (find_knn_corrected exTree2 exTree2_wf exQ2 2 (by decide)).1 (by decide)

theorem foldl_candChainStep_R (m : MTree) (Dd : Nat → Nat → ℚ) :
    ∀ (rest : List Nat) (st0 : CandState),
      (rest.foldl (candChainStep m Dd) st0).R =
        rest.foldl (fun acc i => if 0 < (cl m i).radius then (cl m i).radius else acc) st0.R := by
  intro rest
  induction rest with
  | nil => intro st0; rfl
  | cons a t ih =>
      intro st0
      simp only [List.foldl_cons]
      rw [ih]
      rfl

/-- The running radius the code threads along the ancestry is the radius of
the deepest positive-radius cluster on the path (root's radius as
fallback) — not the largest. -/
theorem candChain_R (m : MTree) (Dd : Nat → Nat → ℚ) (r0 : Nat) (rest : List Nat) :
    (candChain m Dd (r0 :: rest)).R = lastPositiveRadius m (r0 :: rest) := by
  simp only [candChain, lastPositiveRadius]
  rw [foldl_candChainStep_R]

theorem candStep_mem_keys (m : MTree) (Dd : Nat → Nat → ℚ) (next : Nat) (st : CandState)
    (x : Nat) :
    x ∈ keys (candStep m Dd next st) ↔
      (x ∈ workingSet m st ∧
        Dd (cl m next).argmedoid (cl m x).argmedoid ≤ (cl m x).radius + st.R * 4) := by
  unfold candStep keys
  constructor
  · intro h
    rcases List.mem_map.1 h with ⟨p, hp, rfl⟩
    have h1 := List.mem_filter.1 hp
    rcases List.mem_map.1 h1.1 with ⟨y, hy, rfl⟩
    exact ⟨hy, by simpa using h1.2⟩
  · rintro ⟨hw, hd⟩
    exact List.mem_map.2 ⟨(x, Dd (cl m next).argmedoid (cl m x).argmedoid),
      List.mem_filter.2 ⟨List.mem_map.2 ⟨x, hw, rfl⟩, by simpa using hd⟩, rfl⟩

/-- Claim C4, amended: a working-set cluster `x` is retained in the
candidates of the ancestry's last cluster `c` iff
`d(c.medoid, x.medoid) <= x.radius + R*4` where `R` is the radius of the
deepest cluster with positive radius on the path (the root's radius when
none is positive) — the most recently observed positive radius, not the
largest one. -/
theorem find_candidates_corrected (m : MTree) (Dd : Nat → Nat → ℚ) (r0 : Nat)
    (rest : List Nat) (c : Nat) :
    (candChain m Dd (r0 :: (rest ++ [c]))).R = lastPositiveRadius m (r0 :: (rest ++ [c])) ∧
    ∀ x, x ∈ keys (candChain m Dd (r0 :: (rest ++ [c]))).cands ↔
      (x ∈ workingSet m (candChain m Dd (r0 :: rest)) ∧
        Dd (cl m c).argmedoid (cl m x).argmedoid ≤
          (cl m x).radius + lastPositiveRadius m (r0 :: (rest ++ [c])) * 4) := by
  have hfold : candChain m Dd (r0 :: (rest ++ [c]))
      = candChainStep m Dd (candChain m Dd (r0 :: rest)) c := by
    simp only [candChain, List.foldl_append, List.foldl_cons, List.foldl_nil]
  have hR : (if 0 < (cl m c).radius then (cl m c).radius
        else (candChain m Dd (r0 :: rest)).R)
      = lastPositiveRadius m (r0 :: (rest ++ [c])) := by
    rw [candChain_R]
    simp only [lastPositiveRadius, List.foldl_append, List.foldl_cons, List.foldl_nil]
  constructor
  · rw [hfold]
    show (if 0 < (cl m c).radius then (cl m c).radius
        else (candChain m Dd (r0 :: rest)).R) = _
    exact hR
  · intro x
    rw [hfold]
    show x ∈ keys (candStep m Dd c
      ⟨if 0 < (cl m c).radius then (cl m c).radius else (candChain m Dd (r0 :: rest)).R,
        (candChain m Dd (r0 :: rest)).idx, (candChain m Dd (r0 :: rest)).cands⟩) ↔ _
    rw [hR, candStep_mem_keys]
    have hws : workingSet m
        ⟨lastPositiveRadius m (r0 :: (rest ++ [c])), (candChain m Dd (r0 :: rest)).idx,
          (candChain m Dd (r0 :: rest)).cands⟩
        = workingSet m (candChain m Dd (r0 :: rest)) := rfl
    rw [hws]

/-- Claim C4, counterexample: on the ancestry root(radius 10) →
cluster 1 (radius 2) → cluster 2 (radius 0), the largest positive radius
on the path is 10, so the claim would retain working-set cluster 4
(distance 15 ≤ 1 + 10·4); the code's threshold uses the most recent
positive radius 2 and drops it (15 > 1 + 2·4). -/
theorem find_candidates_counterexample :
    4 ∈ workingSet exC4 (candChain exC4 DdC4 [0, 1]) ∧
    DdC4 (cl exC4 2).argmedoid (cl exC4 4).argmedoid ≤
      (cl exC4 4).radius + specLargestPositiveRadius exC4 [0, 1, 2] * 4 ∧
    4 ∉ keys (candChain exC4 DdC4 [0, 1, 2]).cands := by
  refine ⟨?_, ?_, ?_⟩ <;>
    norm_num [candChain, candChainStep, candStep, workingSet, dedupBy, dedupByAux, keys,
      cl, exC4, DdC4, specLargestPositiveRadius, List.filter_cons, List.flatMap_cons,
      List.flatMap_nil, List.map_cons, List.map_nil, List.cons_ne_nil, List.foldl_cons,
      List.foldl_nil]

theorem find_candidates_corrected_witness :
    (candChain exC4 DdC4 (0 :: ([1] ++ [2]))).R = lastPositiveRadius exC4 (0 :: ([1] ++ [2])) :=
  (find_candidates_corrected exC4 DdC4 0 [1] 2).1

theorem argmaxAux_fst_lt : ∀ {l : List ℚ}, l ≠ [] → (argmaxAux l).1 < l.length := by
  intro l
  match l with
  | [] => intro h; exact absurd rfl h
  | [x] => intro _; simp [argmaxAux]
  | x :: y :: rest =>
      intro _
      have ih := argmaxAux_fst_lt (l := y :: rest) (List.cons_ne_nil y rest)
      simp only [argmaxAux]
      split
      · simp
      · simpa [List.length_cons] using Nat.succ_lt_succ ih

theorem find_poles_sub (dd : Nat → Nat → ℚ) (c : PCluster)
    (hsub : ∀ x ∈ c.argsamples, x ∈ c.argpoints) (hrad : c.argradius ∈ c.argpoints) :
    ∀ p ∈ find_poles dd c, p ∈ c.argpoints := by
  intro p hp
  unfold find_poles at hp
  split at hp
  next hlen =>
    rcases List.mem_cons.1 hp with rfl | hp1
    · exact hrad
    · rcases List.mem_singleton.1 hp1 with rfl
      refine hsub _ ?_
      have hne : c.argsamples ≠ [] := by
        intro h
        rw [h] at hlen
        simp at hlen
      have hlt : (argmaxAux (c.argsamples.map (dd c.argradius))).1 < c.argsamples.length := by
        have := argmaxAux_fst_lt (l := c.argsamples.map (dd c.argradius))
          (by simpa using hne)
        simpa using this
      rw [List.getD_eq_getElem _ _ hlt]
      exact List.getElem_mem hlt
  next => exact hsub p hp

theorem find_poles_pair (dd : Nat → Nat → ℚ) (c : PCluster)
    (hlen : 1 < c.argsamples.length) :
    ∃ p0 p1, find_poles dd c = [p0, p1] := by
  unfold find_poles
  split
  · exact ⟨_, _, rfl⟩
  next h =>
    have h2 : c.argsamples.length = 2 := by omega
    match c.argsamples, h2 with
    | [a, b], _ => exact ⟨a, b, rfl⟩

theorem argminAux_pair (x y : ℚ) : argminAux [x, y] = if x ≤ y then (0, x) else (1, y) := by
  simp [argminAux]

/-- The assignment loop splits the non-pole points by nearest pole,
appending them in order to the two seeded buckets. -/
theorem assignPoints_pair (dd : Nat → Nat → ℚ) (p0 p1 : Nat) :
    ∀ (pts : List Nat) (a0 a1 : List Nat),
      assignPoints dd [p0, p1] pts [a0, a1] =
        [a0 ++ pts.filter (fun p => p ∉ ([p0, p1] : List Nat) ∧ dd p p0 ≤ dd p p1),
          a1 ++ pts.filter (fun p => p ∉ ([p0, p1] : List Nat) ∧ ¬ dd p p0 ≤ dd p p1)] := by
  intro pts
  induction pts with
  | nil => intro a0 a1; simp [assignPoints]
  | cons p rest ih =>
      intro a0 a1
      by_cases hp : p ∈ ([p0, p1] : List Nat)
      · have h1 : assignPoints dd [p0, p1] (p :: rest) [a0, a1]
            = assignPoints dd [p0, p1] rest [a0, a1] := by
          simp only [assignPoints, List.foldl_cons, if_pos hp]
        rw [h1, ih]
        rw [List.filter_cons_of_neg (by simp [hp]), List.filter_cons_of_neg (by simp [hp])]
      · by_cases hd : dd p p0 ≤ dd p p1
        · have h1 : assignPoints dd [p0, p1] (p :: rest) [a0, a1]
              = assignPoints dd [p0, p1] rest [a0 ++ [p], a1] := by
            simp only [assignPoints, List.foldl_cons, if_neg hp, List.map_cons, List.map_nil,
              argminAux_pair, if_pos hd]
            rfl
          rw [h1, ih]
          rw [List.filter_cons_of_pos (by simp [hp, hd]),
            List.filter_cons_of_neg (by simp [hp, hd])]
          simp
        · have h1 : assignPoints dd [p0, p1] (p :: rest) [a0, a1]
              = assignPoints dd [p0, p1] rest [a0, a1 ++ [p]] := by
            simp only [assignPoints, List.foldl_cons, if_neg hp, List.map_cons, List.map_nil,
              argminAux_pair, if_neg hd]
            rfl
          rw [h1, ih]
          rw [List.filter_cons_of_neg (by simp [hp, hd]),
            List.filter_cons_of_pos (by simp [hp, hd])]
          simp

theorem insertionSort_pair {r : List Nat → List Nat → Prop} [DecidableRel r]
    (A B : List Nat) :
    List.insertionSort r [A, B] = if r A B then [A, B] else [B, A] := by
  simp [List.insertionSort, List.orderedInsert]

/-- Claim C7: `partition` splits iff `|argsamples| > 1` and every criterion
holds (otherwise the children list is empty); a split yields exactly two
children with nonempty, pairwise-disjoint buckets that together cover
`argpoints`, sorted ascending by size, child `i` named
`name + '0' + '1'*i`. -/
theorem partition_spec (dd : Nat → Nat → ℚ) (crit : List Bool) (c : PCluster)
    (hsub : ∀ x ∈ c.argsamples, x ∈ c.argpoints) (hrad : c.argradius ∈ c.argpoints)
    (hpoles : (find_poles dd c).Nodup) :
    (¬ (1 < c.argsamples.length ∧ crit.all id) → partition dd crit c = []) ∧
    ((1 < c.argsamples.length ∧ crit.all id) → ∃ b0 b1,
      partition dd crit c =
        [(c.name ++ "0" ++ String.mk (List.replicate 0 '1'), b0),
          (c.name ++ "0" ++ String.mk (List.replicate 1 '1'), b1)] ∧
      b0 ≠ [] ∧ b1 ≠ [] ∧
      (∀ p, p ∈ c.argpoints ↔ (p ∈ b0 ∨ p ∈ b1)) ∧
      (∀ p, ¬ (p ∈ b0 ∧ p ∈ b1)) ∧
      b0.length ≤ b1.length) := by
  constructor
  · intro h
    unfold partition
    rw [if_pos h]
  · intro h
    rcases find_poles_pair dd c h.1 with ⟨p0, p1, hp⟩
    have hp0 : p0 ∈ c.argpoints := find_poles_sub dd c hsub hrad p0 (by rw [hp]; simp)
    have hp1 : p1 ∈ c.argpoints := find_poles_sub dd c hsub hrad p1 (by rw [hp]; simp)
    have hne : p0 ≠ p1 := by
      rw [hp] at hpoles
      simpa using hpoles
    have hcov : ∀ p, p ∈ c.argpoints ↔
        (p ∈ p0 :: c.argpoints.filter
            (fun p => p ∉ ([p0, p1] : List Nat) ∧ dd p p0 ≤ dd p p1) ∨
          p ∈ p1 :: c.argpoints.filter
            (fun p => p ∉ ([p0, p1] : List Nat) ∧ ¬ dd p p0 ≤ dd p p1)) := by
      intro p
      constructor
      · intro hmem
        by_cases hin : p ∈ ([p0, p1] : List Nat)
        · rcases List.mem_cons.1 hin with rfl | hin1
          · exact Or.inl (List.mem_cons_self _ _)
          · rcases List.mem_singleton.1 hin1 with rfl
            exact Or.inr (List.mem_cons_self _ _)
        · by_cases hd : dd p p0 ≤ dd p p1
          · exact Or.inl (List.mem_cons.2 (Or.inr
              (List.mem_filter.2 ⟨hmem, by simpa using And.intro hin hd⟩)))
          · exact Or.inr (List.mem_cons.2 (Or.inr
              (List.mem_filter.2 ⟨hmem, by simpa using And.intro hin hd⟩)))
      · rintro (h1 | h1) <;> rcases List.mem_cons.1 h1 with rfl | h2
        · exact hp0
        · exact (List.mem_filter.1 h2).1
        · exact hp1
        · exact (List.mem_filter.1 h2).1
    have hdisj : ∀ p, ¬ (p ∈ p0 :: c.argpoints.filter
          (fun p => p ∉ ([p0, p1] : List Nat) ∧ dd p p0 ≤ dd p p1) ∧
        p ∈ p1 :: c.argpoints.filter
          (fun p => p ∉ ([p0, p1] : List Nat) ∧ ¬ dd p p0 ≤ dd p p1)) := by
      rintro p ⟨h0, h1⟩
      rcases List.mem_cons.1 h0 with heq | h0f
      · rcases List.mem_cons.1 h1 with heq1 | h1f
        · exact hne (heq.symm.trans heq1)
        · have h2 : p ∉ ([p0, p1] : List Nat) ∧ ¬ dd p p0 ≤ dd p p1 := by
            simpa using (List.mem_filter.1 h1f).2
          exact h2.1 (by rw [heq]; exact List.mem_cons_self _ _)
      · have h2 : p ∉ ([p0, p1] : List Nat) ∧ dd p p0 ≤ dd p p1 := by
          simpa using (List.mem_filter.1 h0f).2
        rcases List.mem_cons.1 h1 with heq1 | h1f
        · exact h2.1 (by rw [heq1]; exact List.mem_cons.2 (Or.inr (List.mem_singleton.2 rfl)))
        · have h3 : p ∉ ([p0, p1] : List Nat) ∧ ¬ dd p p0 ≤ dd p p1 := by
            simpa using (List.mem_filter.1 h1f).2
          exact h3.2 h2.2
    have hpart : partition dd crit c =
        (List.insertionSort (fun a b : List Nat => a.length ≤ b.length)
          (assignPoints dd [p0, p1] c.argpoints [[p0], [p1]])).enum.map
          (fun bi => (c.name ++ "0" ++ String.mk (List.replicate bi.1 '1'), bi.2)) := by
      unfold partition
      rw [if_neg (not_not_intro h), hp]
      rfl
    rw [hpart, assignPoints_pair]
    simp only [List.singleton_append]
    rw [insertionSort_pair]
    by_cases hlen : ((p0 :: c.argpoints.filter
          (fun p => p ∉ ([p0, p1] : List Nat) ∧ dd p p0 ≤ dd p p1)) : List Nat).length ≤
        (p1 :: c.argpoints.filter
          (fun p => p ∉ ([p0, p1] : List Nat) ∧ ¬ dd p p0 ≤ dd p p1)).length
    · rw [if_pos hlen]
      refine ⟨_, _, rfl, List.cons_ne_nil _ _, List.cons_ne_nil _ _, hcov, hdisj, hlen⟩
    · rw [if_neg hlen]
      refine ⟨_, _, rfl, List.cons_ne_nil _ _, List.cons_ne_nil _ _, ?_, ?_, ?_⟩
      · intro p
        rw [hcov p]
        exact or_comm
      · intro p hcon
        exact hdisj p ⟨hcon.2, hcon.1⟩
      · exact Nat.le_of_not_le hlen

theorem partition_spec_witness :
    ∃ b0 b1, partition ddC7 [true] exPC =
        [(exPC.name ++ "0" ++ String.mk (List.replicate 0 '1'), b0),
          (exPC.name ++ "0" ++ String.mk (List.replicate 1 '1'), b1)] ∧
      b0 ≠ [] ∧ b1 ≠ [] ∧
      (∀ p, p ∈ exPC.argpoints ↔ (p ∈ b0 ∨ p ∈ b1)) ∧
      (∀ p, ¬ (p ∈ b0 ∧ p ∈ b1)) ∧
      b0.length ≤ b1.length :=
  (partition_spec ddC7 [true] exPC (by decide) (by decide) (by decide)).2 (by decide)

theorem mem_edgesN {g : GModel} {c : Nat} {p : Nat × ℚ} :
    p ∈ edgesN g c ↔
      (c ∈ g.clusters ∧ p ∈ g.cand c ∧ p.1 ∈ g.clusters ∧
        p.2 ≤ g.radius c + g.radius p.1) := by
  unfold edgesN
  split
  next hc => simp only [Finset.mem_filter]; tauto
  next hc =>
    constructor
    · intro h
      exact absurd h (Finset.not_mem_empty p)
    · rintro ⟨hc1, _⟩
      exact absurd hc1 hc

theorem mem_edgesH {g : GModel} {a b : Nat} {d : ℚ} :
    (b, d) ∈ edgesH g a ↔
      (a ∈ g.clusters ∧ b ∈ g.clusters ∧
        ((b, d) ∈ edgesN g a ∨ (a, d) ∈ edgesN g b)) := by
  unfold edgesH
  split
  next hc =>
    simp only [Finset.mem_union, Finset.mem_biUnion, Finset.mem_image, Finset.mem_filter]
    constructor
    · rintro (h | ⟨b', hb', p, ⟨hp, hpc⟩, heq⟩)
      · exact ⟨hc, (mem_edgesN.1 h).2.2.1, Or.inl h⟩
      · rcases Prod.mk.injEq .. ▸ heq with ⟨rfl, rfl⟩
        rcases p with ⟨p1, p2⟩
        cases hpc
        exact ⟨hc, hb', Or.inr hp⟩
    · rintro ⟨_, hb, h | h⟩
      · exact Or.inl h
      · exact Or.inr ⟨b, hb, (a, d), ⟨h, rfl⟩, rfl⟩
  next hc =>
    constructor
    · intro h
      exact absurd h (Finset.not_mem_empty _)
    · rintro ⟨hc1, _⟩
      exact absurd hc1 hc

/-- Claim C5: after `build_edges` the edge relation is symmetric, has no
self-edges, and every edge satisfies `d <= a.radius + b.radius`.
Hypothesis: the stored distance of a self-candidate is 0, which holds
because candidate distances are metric distances and `d(x,x) = 0`. -/
theorem build_edges_invariants (g : GModel)
    (hself : ∀ c ∈ g.clusters, ∀ p ∈ g.cand c, p.1 = c → p.2 = 0) :
    ∀ a b d, ((b, d) ∈ build_edges g a ↔ (a, d) ∈ build_edges g b) ∧
      ((b, d) ∈ build_edges g a → a ≠ b ∧ d ≤ g.radius a + g.radius b) := by
  have hne : ∀ a b d, (b, d) ∈ build_edges g a → a ≠ b := by
    intro a b d h
    rintro rfl
    rw [build_edges, Finset.mem_erase] at h
    rcases h with ⟨hd, hH⟩
    rcases (mem_edgesH.1 hH).2.2 with h1 | h1 <;>
    · have h2 : d = 0 := hself a (mem_edgesN.1 h1).1 _ (mem_edgesN.1 h1).2.1 rfl
      exact hd (by rw [h2])
  intro a b d
  constructor
  · rw [build_edges, build_edges, Finset.mem_erase, Finset.mem_erase, mem_edgesH, mem_edgesH]
    constructor
    · rintro ⟨hd, ha, hb, h⟩
      refine ⟨?_, hb, ha, h.symm⟩
      intro heq
      rcases Prod.mk.injEq .. ▸ heq with ⟨rfl, rfl⟩
      exact hd rfl
    · rintro ⟨hd, hb, ha, h⟩
      refine ⟨?_, ha, hb, h.symm⟩
      intro heq
      rcases Prod.mk.injEq .. ▸ heq with ⟨rfl, rfl⟩
      exact hd rfl
  · intro h
    refine ⟨hne a b d h, ?_⟩
    rw [build_edges, Finset.mem_erase, mem_edgesH] at h
    rcases h.2.2.2 with h1 | h1
    · exact (mem_edgesN.1 h1).2.2.2
    · have := (mem_edgesN.1 h1).2.2.2
      linarith [this]

theorem build_edges_invariants_witness :
    ((((1 : Nat), (10 : ℚ)) ∈ build_edges gEx 0 ↔ ((0 : Nat), (10 : ℚ)) ∈ build_edges gEx 1) ∧
      (((1 : Nat), (10 : ℚ)) ∈ build_edges gEx 0 → (0 : Nat) ≠ 1 ∧
        (10 : ℚ) ≤ gEx.radius 0 + gEx.radius 1)) :=
  build_edges_invariants gEx (by decide) 0 1 10

theorem build_edges_mem_clusters {g : GModel} {a b : Nat} {d : ℚ}
    (h : (b, d) ∈ build_edges g a) : a ∈ g.clusters ∧ b ∈ g.clusters := by
  rw [build_edges, Finset.mem_erase, mem_edgesH] at h
  exact ⟨h.2.1, h.2.2.1⟩

theorem build_edges_nonneg {g : GModel}
    (hnonneg : ∀ c ∈ g.clusters, ∀ p ∈ g.cand c, 0 ≤ p.2) {a b : Nat} {d : ℚ}
    (h : (b, d) ∈ build_edges g a) : 0 ≤ d := by
  rw [build_edges, Finset.mem_erase, mem_edgesH] at h
  rcases h.2.2.2 with h1 | h1
  · exact hnonneg a (mem_edgesN.1 h1).1 _ (mem_edgesN.1 h1).2.1
  · exact hnonneg b (mem_edgesN.1 h1).1 _ (mem_edgesN.1 h1).2.1

/-- On a walkable edge the distance is strictly positive: a zero-distance
edge would force one endpoint to subsume the other. -/
theorem walkable_edge_pos (g : GModel)
    (hself : ∀ c ∈ g.clusters, ∀ p ∈ g.cand c, p.1 = c → p.2 = 0)
    (hnonneg : ∀ c ∈ g.clusters, ∀ p ∈ g.cand c, 0 ≤ p.2) :
    ∀ c ∈ walkable g, ∀ p ∈ walkableEdges g c, 0 < p.2 := by
  intro c hc p hp
  rw [walkableEdges, if_pos hc, Finset.mem_filter] at hp
  rcases hp with ⟨hedge, hbnot⟩
  rcases p with ⟨b, d⟩
  have hd0 : 0 ≤ d := build_edges_nonneg hnonneg hedge
  rcases lt_or_eq_of_le hd0 with h | h
  · exact h
  · exfalso
    rcases h.symm with rfl
    have hmem := build_edges_mem_clusters hedge
    have hsymm : (c, (0 : ℚ)) ∈ build_edges g b :=
      ((build_edges_invariants g hself c b 0).1).1 hedge
    rcases le_total (g.radius b) (g.radius c) with hr | hr
    · -- c's radius dominates: b is subsumed via the edge b → c
      have hbs : b ∈ subsumed g := by
        rw [subsumed, Finset.mem_filter]
        refine ⟨hmem.2, ⟨(c, 0), hsymm, ?_⟩⟩
        show g.radius c ≥ 0 + g.radius b
        simpa using hr
      exact hbnot hbs
    · -- b's radius dominates: c is subsumed via the edge c → b
      have hcs : c ∈ subsumed g := by
        rw [subsumed, Finset.mem_filter]
        refine ⟨hmem.1, ⟨(b, 0), hedge, ?_⟩⟩
        show g.radius b ≥ 0 + g.radius c
        simpa using hr
      rw [walkable, Finset.mem_sdiff] at hc
      exact hc.2 hcs

/-- Claim C6: for every walkable cluster with at least one walkable
neighbor, each transition probability equals `(1/d) / sum(1/d_m)` and the
probabilities sum to 1 exactly — in particular within `1e-6` of 1. -/
theorem transition_probabilities (g : GModel)
    (hself : ∀ c ∈ g.clusters, ∀ p ∈ g.cand c, p.1 = c → p.2 = 0)
    (hnonneg : ∀ c ∈ g.clusters, ∀ p ∈ g.cand c, 0 ≤ p.2) :
    ∀ c ∈ walkable g, (walkableEdges g c).Nonempty →
      (∀ t ∈ probEdges g c, t.2.2 = (1 / t.2.1) / (∑ p ∈ walkableEdges g c, 1 / p.2)) ∧
      (∑ t ∈ probEdges g c, t.2.2 = 1) ∧
      |(∑ t ∈ probEdges g c, t.2.2) - 1| ≤ 1 / 1000000 := by
  intro c hc hne
  have hpos : ∀ p ∈ walkableEdges g c, 0 < p.2 :=
    walkable_edge_pos g hself hnonneg c hc
  have hfac : 0 < probFactor g c := by
    unfold probFactor
    exact Finset.sum_pos (fun p hp => one_div_pos.2 (hpos p hp)) hne
  have hformula : ∀ t ∈ probEdges g c,
      t.2.2 = (1 / t.2.1) / (∑ p ∈ walkableEdges g c, 1 / p.2) := by
    intro t ht
    rcases Finset.mem_image.1 ht with ⟨p, hp, rfl⟩
    show 1 / (p.2 * probFactor g c) = (1 / p.2) / probFactor g c
    rw [div_div]
  have hinj : ∀ x ∈ walkableEdges g c, ∀ y ∈ walkableEdges g c,
      ((fun p : Nat × ℚ => (p.1, p.2, 1 / (p.2 * probFactor g c))) x =
        (fun p : Nat × ℚ => (p.1, p.2, 1 / (p.2 * probFactor g c))) y) → x = y := by
    intro x _ y _ hxy
    have h1 : x.1 = y.1 := congrArg (fun t : Nat × ℚ × ℚ => t.1) hxy
    have h2 : x.2 = y.2 := congrArg (fun t : Nat × ℚ × ℚ => t.2.1) hxy
    exact Prod.ext h1 h2
  have hsum : (∑ t ∈ probEdges g c, t.2.2) = 1 := by
    unfold probEdges
    rw [Finset.sum_image hinj]
    have h1 : ∀ p ∈ walkableEdges g c,
        ((p.1, p.2, 1 / (p.2 * probFactor g c)) : Nat × ℚ × ℚ).2.2 =
          (1 / p.2) * (1 / probFactor g c) := by
      intro p hp
      show 1 / (p.2 * probFactor g c) = (1 / p.2) * (1 / probFactor g c)
      rw [one_div_mul_one_div]

    rw [Finset.sum_congr rfl h1, ← Finset.sum_mul]
    show probFactor g c * (1 / probFactor g c) = 1
    rw [mul_one_div, div_self (ne_of_gt hfac)]
  exact ⟨hformula, hsum, by rw [hsum]; norm_num⟩

theorem gEx_edges0 : build_edges gEx 0 = {(1, 10)} := by
  norm_num [build_edges, edgesH, edgesN, gEx, Finset.filter_insert, Finset.filter_singleton,
    Finset.biUnion_insert, Finset.singleton_biUnion, Finset.image_insert, Finset.image_singleton]
  rfl

theorem gEx_edges1 : build_edges gEx 1 = {(0, 10)} := by
  norm_num [build_edges, edgesH, edgesN, gEx, Finset.filter_insert, Finset.filter_singleton,
    Finset.biUnion_insert, Finset.singleton_biUnion, Finset.image_insert, Finset.image_singleton]
  rfl

theorem gEx_subsumed : subsumed gEx = ∅ := by
  rw [subsumed]
  rw [show gEx.clusters = {0, 1} from by decide]
  rw [Finset.filter_insert, Finset.filter_singleton]
  rw [if_neg, if_neg]
  · rw [gEx_edges1]
    norm_num [gEx]
  · rw [gEx_edges0]
    norm_num [gEx]

theorem gEx_walkable : walkable gEx = {0, 1} := by
  rw [walkable, gEx_subsumed, Finset.sdiff_empty]
  decide

theorem gEx_walkableEdges0 : walkableEdges gEx 0 = {(1, 10)} := by
  rw [walkableEdges, if_pos (by rw [gEx_walkable]; decide), gEx_edges0, gEx_subsumed]
  simp

theorem transition_probabilities_witness :
    (∀ t ∈ probEdges gEx 0, t.2.2 = (1 / t.2.1) / (∑ p ∈ walkableEdges gEx 0, 1 / p.2)) ∧
    (∑ t ∈ probEdges gEx 0, t.2.2 = 1) ∧
    |(∑ t ∈ probEdges gEx 0, t.2.2) - 1| ≤ 1 / 1000000 :=
  transition_probabilities gEx (by decide) (by decide) 0
    (by rw [gEx_walkable]; decide)
    ⟨(1, 10), by rw [gEx_walkableEdges0]; exact Finset.mem_singleton_self _⟩

/-- Claim C8: `replace_clusters` errors iff a removal is absent, an
addition is present, or the united argpoints differ; on success the new
cluster set is `(clusters \ removals) ∪ additions` with all other graph
data unchanged, so every derived edge set is the one rebuilt from the new
cluster set.  (In this state-passing model an error returns no new state,
which is the source's behavior of raising before any mutation.) -/
theorem replace_clusters_spec (g : GModel) (removals additions : Finset Nat) :
    ((∃ e, replace_clusters g removals additions = .error e) ↔
      (¬ removals ⊆ g.clusters ∨ (∃ c ∈ additions, c ∈ g.clusters) ∨
        removals.biUnion g.pts ≠ additions.biUnion g.pts)) ∧
    (∀ g', replace_clusters g removals additions = .ok g' →
      g'.clusters = (g.clusters \ removals) ∪ additions ∧
      g'.cand = g.cand ∧ g'.radius = g.radius ∧ g'.pts = g.pts ∧
      ∀ c, build_edges g' c =
        build_edges ⟨(g.clusters \ removals) ∪ additions, g.cand, g.radius, g.pts⟩ c) := by
  unfold replace_clusters
  by_cases h1 : ¬ removals ⊆ g.clusters
  · rw [if_pos h1]
    exact ⟨⟨fun _ => Or.inl h1, fun _ => ⟨_, rfl⟩⟩, fun g' hg => by cases hg⟩
  · rw [if_neg h1]
    by_cases h2 : ∃ c ∈ additions, c ∈ g.clusters
    · rw [if_pos h2]
      exact ⟨⟨fun _ => Or.inr (Or.inl h2), fun _ => ⟨_, rfl⟩⟩, fun g' hg => by cases hg⟩
    · rw [if_neg h2]
      by_cases h3 : removals.biUnion g.pts ≠ additions.biUnion g.pts
      · rw [if_pos h3]
        exact ⟨⟨fun _ => Or.inr (Or.inr h3), fun _ => ⟨_, rfl⟩⟩, fun g' hg => by cases hg⟩
      · rw [if_neg h3]
        refine ⟨⟨fun he => ?_, fun hcond => ?_⟩, fun g' hg => ?_⟩
        · rcases he with ⟨e, he⟩
          cases he
        · rcases hcond with hc | hc | hc
          · exact absurd hc (not_not.2 (not_not.1 (fun hn => hn (not_not.1
              (fun hm => hm (by tauto))))))
          · exact absurd hc h2
          · exact absurd hc h3
        · have hg' : g' = { g with clusters := (g.clusters \ removals) ∪ additions } := by
            injection hg with h
            exact h.symm
          subst hg'
          exact ⟨rfl, rfl, rfl, rfl, fun c => rfl⟩

theorem replace_clusters_spec_witness :
    ((∃ e, replace_clusters gEx {1} {0} = .error e) ↔
      (¬ ({1} : Finset Nat) ⊆ gEx.clusters ∨ (∃ c ∈ ({0} : Finset Nat), c ∈ gEx.clusters) ∨
        Finset.biUnion {1} gEx.pts ≠ Finset.biUnion {0} gEx.pts)) ∧
    ((⟨(gEx.clusters \ {1}) ∪ {2}, gEx.cand, gEx.radius, gEx.pts⟩ : GModel).clusters
      = (gEx.clusters \ {1}) ∪ {2}) :=
  ⟨(replace_clusters_spec gEx {1} {0}).1,
    ((replace_clusters_spec gEx {1} {2}).2
      ⟨(gEx.clusters \ {1}) ∪ {2}, gEx.cand, gEx.radius, gEx.pts⟩
      (by unfold replace_clusters
          rw [if_neg (by decide), if_neg (by decide), if_neg (by decide)])).1⟩

/-- Claim C10: a graph with fewer than two clusters short-circuits
`random_walks` to `{cluster: 1 for cluster in clusters}`, for any starts
and steps, before any start validation or walking — so no error is
raised even for invalid starts. -/
theorem random_walks_small_graph (g : GModel) (pick : Nat → Nat → Nat)
    (starts : List Nat) (steps : Nat) (h : g.clusters.card < 2) :
    ∃ counts, random_walks g pick starts steps = .ok counts ∧
      (∀ c ∈ g.clusters, (c, 1) ∈ counts) ∧
      (∀ pr ∈ counts, pr.1 ∈ g.clusters ∧ pr.2 = 1) := by
  refine ⟨(clustersSorted g).map fun c => (c, 1), ?_, ?_, ?_⟩
  · unfold random_walks
    rw [if_pos h]
  · intro c hc
    exact List.mem_map.2 ⟨c, (Finset.mem_sort (α := Nat) (· ≤ ·)).2 hc, rfl⟩
  · intro pr hpr
    rcases List.mem_map.1 hpr with ⟨c, hc, rfl⟩
    exact ⟨(Finset.mem_sort (α := Nat) (· ≤ ·)).1 hc, rfl⟩

theorem random_walks_small_graph_witness :
    ∃ counts, random_walks gSmall (fun _ _ => 0) [99] 7 = .ok counts ∧
      (∀ c ∈ gSmall.clusters, (c, 1) ∈ counts) ∧
      (∀ pr ∈ counts, pr.1 ∈ gSmall.clusters ∧ pr.2 = 1) :=
  random_walks_small_graph gSmall (fun _ _ => 0) [99] 7 (by decide)

theorem walkableEdges_fst_subset (g : GModel) (c : Nat) :
    (walkableEdges g c).image Prod.fst ⊆ g.clusters := by
  intro n hn
  rcases Finset.mem_image.1 hn with ⟨p, hp, rfl⟩
  unfold walkableEdges at hp
  split at hp
  · rcases p with ⟨b, d⟩
    exact (build_edges_mem_clusters (Finset.mem_filter.1 hp).1).2
  · exact absurd hp (Finset.not_mem_empty _)

theorem mem_nbrs {g : GModel} {c n : Nat} :
    n ∈ nbrs g c ↔ n ∈ (walkableEdges g c).image Prod.fst := by
  unfold nbrs
  exact Finset.mem_sort _

theorem nbrs_subset {g : GModel} {c : Nat} : ∀ n ∈ nbrs g c, n ∈ g.clusters :=
  fun _ hn => walkableEdges_fst_subset g c (mem_nbrs.1 hn)

theorem nbrs_length_le (g : GModel) (c : Nat) : (nbrs g c).length ≤ g.clusters.card := by
  unfold nbrs
  rw [Finset.length_sort]
  exact Finset.card_le_card (walkableEdges_fst_subset g c)

theorem mem_sched (front : Bool) (rest fresh : List Nat) (x : Nat) :
    x ∈ (if front then rest ++ fresh else fresh.reverse ++ rest) ↔ x ∈ rest ∨ x ∈ fresh := by
  cases front <;> simp [or_comm]

/-- The master invariant lemma for the shared worklist loop of `bft` and
`dft`: with enough fuel the returned set contains the incoming visited set
and queue, is closed under walkable neighbors, and contains only clusters
already visited or reachable from the queue. -/
theorem worklistLoop_spec (g : GModel) (front : Bool) :
    ∀ (fuel : Nat) (q : List Nat) (visited : Finset Nat),
      (g.clusters \ visited).card * (g.clusters.card + 1) + q.length ≤ fuel →
      (∀ v ∈ visited, ∀ n ∈ nbrs g v, n ∈ visited ∨ n ∈ q) →
      (∀ x ∈ q, x ∈ g.clusters) →
      visited ⊆ g.clusters →
      (∀ v ∈ visited, v ∈ worklistLoop g front fuel q visited) ∧
      (∀ x ∈ q, x ∈ worklistLoop g front fuel q visited) ∧
      (∀ v ∈ worklistLoop g front fuel q visited, ∀ n ∈ nbrs g v,
        n ∈ worklistLoop g front fuel q visited) ∧
      (∀ v ∈ worklistLoop g front fuel q visited,
        v ∈ visited ∨ ∃ s ∈ q, Reaches g s v) := by
  intro fuel
  induction fuel with
  | zero =>
      intro q visited hfuel hinv hq hv
      have hq0 : q = [] := List.eq_nil_of_length_eq_zero (by omega)
      subst hq0
      refine ⟨fun v hv1 => hv1, fun x hx => absurd hx (List.not_mem_nil x), ?_, ?_⟩
      · intro v hv1 n hn
        rcases hinv v hv1 n hn with h | h
        · exact h
        · exact absurd h (List.not_mem_nil n)
      · intro v hv1
        exact Or.inl hv1
  | succ fl ih =>
      intro q visited hfuel hinv hq hv
      match q with
      | [] =>
          refine ⟨fun v hv1 => hv1, fun x hx => absurd hx (List.not_mem_nil x), ?_, ?_⟩
          · intro v hv1 n hn
            rcases hinv v hv1 n hn with h | h
            · exact h
            · exact absurd h (List.not_mem_nil n)
          · intro v hv1
            exact Or.inl hv1
      | c :: rest =>
          by_cases hcv : c ∈ visited
          · rw [show worklistLoop g front (fl + 1) (c :: rest) visited
                = worklistLoop g front fl rest visited from by
              rw [worklistLoop, if_pos hcv]]
            have hinv1 : ∀ v ∈ visited, ∀ n ∈ nbrs g v, n ∈ visited ∨ n ∈ rest := by
              intro v hv1 n hn
              rcases hinv v hv1 n hn with h | h
              · exact Or.inl h
              · rcases List.mem_cons.1 h with rfl | h1
                · exact Or.inl hcv
                · exact Or.inr h1
            have hq1 : ∀ x ∈ rest, x ∈ g.clusters := fun x hx => hq x (List.mem_cons.2 (Or.inr hx))
            rcases ih rest visited (by simp only [List.length_cons] at hfuel; omega) hinv1 hq1 hv
              with ⟨hA, hB, hC, hD⟩
            refine ⟨hA, ?_, hC, ?_⟩
            · intro x hx
              rcases List.mem_cons.1 hx with rfl | h1
              · exact hA x hcv
              · exact hB x h1
            · intro v hv1
              rcases hD v hv1 with h | ⟨s, hs, hr⟩
              · exact Or.inl h
              · exact Or.inr ⟨s, List.mem_cons.2 (Or.inr hs), hr⟩
          · have hcc : c ∈ g.clusters := hq c (List.mem_cons_self _ _)
            have hstep : worklistLoop g front (fl + 1) (c :: rest) visited
                = worklistLoop g front fl
                  (if front then rest ++ ((nbrs g c).filter fun n => n ∉ insert c visited)
                    else ((nbrs g c).filter fun n => n ∉ insert c visited).reverse ++ rest)
                  (insert c visited) := by
              rw [worklistLoop, if_neg hcv]
            rw [hstep]
            have hcard : (g.clusters \ insert c visited).card + 1
                = (g.clusters \ visited).card := by
              have h1 : g.clusters \ insert c visited = (g.clusters \ visited).erase c := by
                ext x
                simp only [Finset.mem_sdiff, Finset.mem_erase, Finset.mem_insert]
                tauto
              rw [h1]
              rw [Finset.card_erase_of_mem (Finset.mem_sdiff.2 ⟨hcc, hcv⟩)]
              have : 0 < (g.clusters \ visited).card :=
                Finset.card_pos.2 ⟨c, Finset.mem_sdiff.2 ⟨hcc, hcv⟩⟩
              omega
            have hlen : (if front then rest ++ ((nbrs g c).filter fun n => n ∉ insert c visited)
                else ((nbrs g c).filter fun n => n ∉ insert c visited).reverse ++ rest).length
                ≤ rest.length + g.clusters.card := by
              have h1 : ((nbrs g c).filter fun n => n ∉ insert c visited).length
                  ≤ g.clusters.card :=
                le_trans (List.length_filter_le _ _) (nbrs_length_le g c)
              cases front
              · show ((((nbrs g c).filter fun n => n ∉ insert c visited).reverse ++ rest)).length
                    ≤ rest.length + g.clusters.card
                rw [List.length_append, List.length_reverse]
                omega
              · show ((rest ++ ((nbrs g c).filter fun n => n ∉ insert c visited))).length
                    ≤ rest.length + g.clusters.card
                rw [List.length_append]
                omega
            have hfuel1 : (g.clusters \ insert c visited).card * (g.clusters.card + 1) +
                (if front then rest ++ ((nbrs g c).filter fun n => n ∉ insert c visited)
                  else ((nbrs g c).filter fun n => n ∉ insert c visited).reverse ++ rest).length
                ≤ fl := by
              simp only [List.length_cons] at hfuel
              have h2 : (g.clusters \ visited).card * (g.clusters.card + 1)
                  = (g.clusters \ insert c visited).card * (g.clusters.card + 1) +
                    (g.clusters.card + 1) := by
                rw [← hcard]
                ring
              rw [h2] at hfuel
              have h3 := hlen
              omega
            have hinv1 : ∀ v ∈ insert c visited, ∀ n ∈ nbrs g v,
                n ∈ insert c visited ∨ n ∈ (if front then
                  rest ++ ((nbrs g c).filter fun n => n ∉ insert c visited)
                  else ((nbrs g c).filter fun n => n ∉ insert c visited).reverse ++ rest) := by
              intro v hv1 n hn
              rcases Finset.mem_insert.1 hv1 with heq | hv2
              · subst heq
                by_cases hni : n ∈ insert v visited
                · exact Or.inl hni
                · refine Or.inr ((mem_sched front _ _ n).2 (Or.inr ?_))
                  exact List.mem_filter.2 ⟨hn, by simpa using hni⟩
              · rcases hinv v hv2 n hn with h | h
                · exact Or.inl (Finset.mem_insert.2 (Or.inr h))
                · rcases List.mem_cons.1 h with rfl | h1
                  · exact Or.inl (Finset.mem_insert_self _ _)
                  · exact Or.inr ((mem_sched front _ _ n).2 (Or.inl h1))
            have hq1 : ∀ x ∈ (if front then
                rest ++ ((nbrs g c).filter fun n => n ∉ insert c visited)
                else ((nbrs g c).filter fun n => n ∉ insert c visited).reverse ++ rest),
                x ∈ g.clusters := by
              intro x hx
              rcases (mem_sched front _ _ x).1 hx with h | h
              · exact hq x (List.mem_cons.2 (Or.inr h))
              · exact nbrs_subset x (List.mem_filter.1 h).1
            have hv1 : insert c visited ⊆ g.clusters := by
              intro x hx
              rcases Finset.mem_insert.1 hx with rfl | hx1
              · exact hcc
              · exact hv hx1
            rcases ih _ (insert c visited) hfuel1 hinv1 hq1 hv1 with ⟨hA, hB, hC, hD⟩
            refine ⟨?_, ?_, hC, ?_⟩
            · intro v hv2
              exact hA v (Finset.mem_insert.2 (Or.inr hv2))
            · intro x hx
              rcases List.mem_cons.1 hx with rfl | h1
              · exact hA x (Finset.mem_insert_self _ _)
              · exact hB x ((mem_sched front _ _ x).2 (Or.inl h1))
            · intro v hv2
              rcases hD v hv2 with h | ⟨s, hs, hr⟩
              · rcases Finset.mem_insert.1 h with rfl | h1
                · exact Or.inr ⟨v, List.mem_cons_self _ _, Relation.ReflTransGen.refl⟩
                · exact Or.inl h1
              · rcases (mem_sched front _ _ s).1 hs with h1 | h1
                · exact Or.inr ⟨s, List.mem_cons.2 (Or.inr h1), hr⟩
                · refine Or.inr ⟨c, List.mem_cons_self _ _, ?_⟩
                  exact Relation.ReflTransGen.trans
                    (Relation.ReflTransGen.single (List.mem_filter.1 h1).1) hr

/-- The invariant lemma for `traverse`'s set-based flood fill. -/
theorem traverseLoop_spec (g : GModel) :
    ∀ (fuel : Nat) (visited frontier : Finset Nat),
      (g.clusters \ visited).card + 1 ≤ fuel →
      (∀ v ∈ visited, ∀ n ∈ nbrs g v, n ∈ visited ∨ n ∈ frontier) →
      frontier ⊆ g.clusters →
      visited ⊆ g.clusters →
      Disjoint frontier visited →
      (∀ v ∈ visited, v ∈ traverseLoop g fuel visited frontier) ∧
      (∀ x ∈ frontier, x ∈ traverseLoop g fuel visited frontier) ∧
      (∀ v ∈ traverseLoop g fuel visited frontier, ∀ n ∈ nbrs g v,
        n ∈ traverseLoop g fuel visited frontier) ∧
      (∀ v ∈ traverseLoop g fuel visited frontier,
        v ∈ visited ∨ ∃ s ∈ frontier, Reaches g s v) := by
  intro fuel
  induction fuel with
  | zero =>
      intro visited frontier hfuel
      omega
  | succ fl ih =>
      intro visited frontier hfuel hinv hf hv hdisj
      by_cases hfe : frontier = ∅
      · subst hfe
        rw [show traverseLoop g (fl + 1) visited ∅ = visited from by
          rw [traverseLoop, if_pos rfl]]
        refine ⟨fun v hv1 => hv1, fun x hx => absurd hx (Finset.not_mem_empty x), ?_, ?_⟩
        · intro v hv1 n hn
          rcases hinv v hv1 n hn with h | h
          · exact h
          · exact absurd h (Finset.not_mem_empty n)
        · intro v hv1
          exact Or.inl hv1
      · have hstep : traverseLoop g (fl + 1) visited frontier
            = traverseLoop g fl (visited ∪ frontier)
              ((frontier.biUnion fun c => (walkableEdges g c).image Prod.fst) \
                (visited ∪ frontier)) := by
          rw [traverseLoop, if_neg hfe]
        rw [hstep]
        rcases Finset.nonempty_iff_ne_empty.2 hfe with ⟨x, hx⟩
        have hxv : x ∉ visited := Finset.disjoint_left.1 hdisj hx
        have hcard : (g.clusters \ (visited ∪ frontier)).card + 1
            ≤ (g.clusters \ visited).card := by
          have hss : g.clusters \ (visited ∪ frontier) ⊂ g.clusters \ visited := by
            refine Finset.ssubset_iff_of_subset ?_ |>.2 ?_
            · intro y hy
              rw [Finset.mem_sdiff] at hy ⊢
              exact ⟨hy.1, fun hyv => hy.2 (Finset.mem_union.2 (Or.inl hyv))⟩
            · exact ⟨x, Finset.mem_sdiff.2 ⟨hf hx, hxv⟩,
                fun hmem => (Finset.mem_sdiff.1 hmem).2 (Finset.mem_union.2 (Or.inr hx))⟩
          have := Finset.card_lt_card hss
          omega
        have hinv1 : ∀ v ∈ visited ∪ frontier, ∀ n ∈ nbrs g v,
            n ∈ visited ∪ frontier ∨
              n ∈ (frontier.biUnion fun c => (walkableEdges g c).image Prod.fst) \
                (visited ∪ frontier) := by
          intro v hv1 n hn
          rcases Finset.mem_union.1 hv1 with hv2 | hv2
          · rcases hinv v hv2 n hn with h | h
            · exact Or.inl (Finset.mem_union.2 (Or.inl h))
            · exact Or.inl (Finset.mem_union.2 (Or.inr h))
          · by_cases hni : n ∈ visited ∪ frontier
            · exact Or.inl hni
            · refine Or.inr (Finset.mem_sdiff.2 ⟨?_, hni⟩)
              exact Finset.mem_biUnion.2 ⟨v, hv2, mem_nbrs.1 hn⟩
        have hf1 : (frontier.biUnion fun c => (walkableEdges g c).image Prod.fst) \
            (visited ∪ frontier) ⊆ g.clusters := by
          intro y hy
          rcases Finset.mem_biUnion.1 (Finset.mem_sdiff.1 hy).1 with ⟨c, _, hyc⟩
          exact walkableEdges_fst_subset g c hyc
        have hv1 : visited ∪ frontier ⊆ g.clusters :=
          Finset.union_subset hv hf
        rcases ih (visited ∪ frontier) _ (by omega) hinv1 hf1 hv1 Finset.sdiff_disjoint
          with ⟨hA, hB, hC, hD⟩
        refine ⟨?_, ?_, hC, ?_⟩
        · intro v hv2
          exact hA v (Finset.mem_union.2 (Or.inl hv2))
        · intro y hy
          exact hA y (Finset.mem_union.2 (Or.inr hy))
        · intro v hv2
          rcases hD v hv2 with h | ⟨s, hs, hr⟩
          · rcases Finset.mem_union.1 h with h1 | h1
            · exact Or.inl h1
            · exact Or.inr ⟨v, h1, Relation.ReflTransGen.refl⟩
          · rcases Finset.mem_biUnion.1 (Finset.mem_sdiff.1 hs).1 with ⟨c, hcf, hsc⟩
            exact Or.inr ⟨c, hcf,
              Relation.ReflTransGen.trans
                (Relation.ReflTransGen.single (mem_nbrs.2 hsc)) hr⟩

theorem traverse_reach (g : GModel) (start : Nat) (hstart : start ∈ g.clusters) :
    ∀ v, v ∈ traverseLoop g (g.clusters.card + 1) ∅ {start} ↔ Reaches g start v := by
  have hspec := traverseLoop_spec g (g.clusters.card + 1) ∅ {start}
    (by rw [Finset.sdiff_empty])
    (by intro v hv; exact absurd hv (Finset.not_mem_empty v))
    (by intro x hx; rw [Finset.mem_singleton.1 hx]; exact hstart)
    (Finset.empty_subset _)
    (Finset.disjoint_empty_right _)
  rcases hspec with ⟨_, hB, hC, hD⟩
  intro v
  constructor
  · intro hv
    rcases hD v hv with h | ⟨s, hs, hr⟩
    · exact absurd h (Finset.not_mem_empty v)
    · rw [Finset.mem_singleton.1 hs] at hr
      exact hr
  · intro hreach
    induction hreach with
    | refl => exact hB start (Finset.mem_singleton_self start)
    | tail hab hbc ih1 => exact hC _ ih1 _ hbc

theorem worklist_reach (g : GModel) (front : Bool) (start : Nat)
    (hstart : start ∈ g.clusters) :
    ∀ v, v ∈ worklistLoop g front (worklistFuel g) [start] ∅ ↔ Reaches g start v := by
  have hfuel : (g.clusters \ ∅).card * (g.clusters.card + 1) + ([start] : List Nat).length
      ≤ worklistFuel g := by
    rw [Finset.sdiff_empty]
    unfold worklistFuel
    have h1 : g.clusters.card * (g.clusters.card + 1)
        ≤ (g.clusters.card + 1) * (g.clusters.card + 1) :=
      Nat.mul_le_mul_right _ (Nat.le_succ _)
    simp only [List.length_singleton]
    omega
  have hspec := worklistLoop_spec g front (worklistFuel g) [start] ∅ hfuel
    (by intro v hv; exact absurd hv (Finset.not_mem_empty v))
    (by intro x hx; rw [List.mem_singleton.1 hx]; exact hstart)
    (Finset.empty_subset _)
  rcases hspec with ⟨_, hB, hC, hD⟩
  intro v
  constructor
  · intro hv
    rcases hD v hv with h | ⟨s, hs, hr⟩
    · exact absurd h (Finset.not_mem_empty v)
    · rw [List.mem_singleton.1 hs] at hr
      exact hr
  · intro hreach
    induction hreach with
    | refl => exact hB start (List.mem_singleton_self start)
    | tail hab hbc ih1 => exact hC _ ih1 _ hbc

/-- Claim C9: `traverse`, `bft` and `dft` all error when started from a
subsumed cluster, and otherwise all return the same set — the walkable
connected component of the start together with the subsumed neighbors of
its members. -/
theorem traversals_equivalent (g : GModel) (start : Nat) :
    (start ∈ subsumed g →
      traverse g start = .error .badStart ∧ bft g start = .error .badStart ∧
        dft g start = .error .badStart) ∧
    (start ∈ g.clusters → start ∉ subsumed g →
      traverse g start = bft g start ∧ bft g start = dft g start ∧
      ∀ S, traverse g start = .ok S → ∀ c,
        (c ∈ S ↔ (Reaches g start c ∨ ∃ w, Reaches g start w ∧ c ∈ subNbrs g w))) := by
  constructor
  · intro hs
    refine ⟨?_, ?_, ?_⟩
    · rw [traverse, if_pos hs]
    · rw [bft, if_pos hs]
    · rw [dft, if_pos hs]
  · intro hc hs
    have hVt := traverse_reach g start hc
    have hVb := worklist_reach g true start hc
    have hVd := worklist_reach g false start hc
    have hte : traverseLoop g (g.clusters.card + 1) ∅ {start}
        = worklistLoop g true (worklistFuel g) [start] ∅ := by
      ext v
      rw [hVt v, hVb v]
    have htd : worklistLoop g true (worklistFuel g) [start] ∅
        = worklistLoop g false (worklistFuel g) [start] ∅ := by
      ext v
      rw [hVb v, hVd v]
    refine ⟨?_, ?_, ?_⟩
    · rw [traverse, bft, if_neg hs, if_neg hs, hte]
    · rw [bft, dft, if_neg hs, if_neg hs, htd]
    · intro S hS c
      rw [traverse, if_neg hs] at hS
      have hS1 : traverseLoop g (g.clusters.card + 1) ∅ {start} ∪
          (traverseLoop g (g.clusters.card + 1) ∅ {start}).biUnion (subNbrs g) = S := by
        injection hS
      rw [← hS1]
      simp only [Finset.mem_union, Finset.mem_biUnion]
      constructor
      · rintro (h | ⟨w, hw, hcw⟩)
        · exact Or.inl ((hVt c).1 h)
        · exact Or.inr ⟨w, (hVt w).1 hw, hcw⟩
      · rintro (h | ⟨w, hw, hcw⟩)
        · exact Or.inl ((hVt c).2 h)
        · exact Or.inr ⟨w, (hVt w).2 hw, hcw⟩

theorem traversals_equivalent_witness :
    traverse gEx 0 = bft gEx 0 ∧ bft gEx 0 = dft gEx 0 ∧
    ∀ S, traverse gEx 0 = .ok S → ∀ c,
      (c ∈ S ↔ (Reaches gEx 0 c ∨ ∃ w, Reaches gEx 0 w ∧ c ∈ subNbrs gEx w)) :=
  (traversals_equivalent gEx 0).2 (by decide) (by rw [gEx_subsumed]; exact Finset.not_mem_empty 0)

end Clam
